import Mathlib

/-!
The frequency counter of go-counter, `pkg/counter/Counter.go`

A shallow embedding of the `Counter` type (`map[string]int`) and of its
methods `New`, `Len`, `Has`, `Count`, `Increment`, `All`, `Top`, `Bottom`,
followed by the properties proved about them.

Modelling choices.

* A Go `string` is a finite sequence of bytes, and `<` on strings compares
  byte by byte (a proper initial segment is smaller): `Token` is `List (Fin 256)` with
  the lexicographic order.
* A Go `int` is a 64-bit integer in twos-complement form.  Values are carried in
  `Int`; the only arithmetic in the package is `count + 1` in `Increment`,
  which is wrapped with `wrapInt`.  Arguments (`n`, `min`, `max`) and stored
  counts range over all of `Int`, a superset of the machine range.
* A Go map is an unordered collection of entries with pairwise distinct keys.
  `Counter.entries` lists them; the position of an entry in that list has no
  meaning.  A `for ... range` loop over a map visits every entry once, in an
  order that the language leaves unspecified and that may change from one loop
  to the next: a `Range c` is one such visiting order, and every method that
  ranges over the map takes the order of its loop as an argument.
* `sort.SliceStable` with a strict weak ordering `less` has exactly one
  possible result, the stable sort; `SliceStable` computes it by insertion.
* The split functions of `cmd/gocounter/main.go` return an `Option`: slice and
  index expressions fail when out of range, and the loops of `scanWords` run
  for a bounded number of rounds.  The library functions `utf8.DecodeRune`,
  `unicode.IsSpace`, `bytes.IndexByte` and `bufio.ScanBytes` are modelled from
  their documentation.
* `viper` is the record of the values it returns for the keys; the operating
  system and `bufio.Scanner` in `CountFiles` are given by what they deliver for
  each source.
-/

namespace GoCounter

/-- A Go string, as its bytes. -/
abbrev Token := List (Fin 256)

/-- One map entry, also the anonymous `struct { Value string; Frequency int }`
of `Top` and `Bottom`: first component `Value`, second `Frequency`. -/
abbrev Entry := Token × Int

/-- The wrap-around of a 64-bit Go `int`, in twos-complement form. -/
def wrapInt (x : Int) : Int :=
  (x + 9223372036854775808) % 18446744073709551616 - 9223372036854775808

/-- The map read `v, ok := m[value]` on a list of entries. -/
def lookupEntry (value : Token) : List Entry → Option Int
  | [] => none
  | e :: es => if e.1 = value then some e.2 else lookupEntry value es

/-- The map write `m[value] = x` on a list of entries: an existing entry is
overwritten, otherwise a new entry is added. -/
def assignEntry (value : Token) (x : Int) : List Entry → List Entry
  | [] => [(value, x)]
  | e :: es => if e.1 = value then (e.1, x) :: es else e :: assignEntry value x es

/-- Insertion of `a` into a list sorted by `less`, behind every element that is
smaller and in front of the first one that is not. -/
def insertStable {α : Type} (less : α → α → Bool) (a : α) : List α → List α
  | [] => [a]
  | b :: l => if less b a then b :: insertStable less a l else a :: b :: l

/-- The result of `sort.SliceStable(xs, less)`: `xs` sorted by `less`, elements
that `less` does not separate kept in their original order. -/
def SliceStable {α : Type} (less : α → α → Bool) : List α → List α
  | [] => []
  | a :: l => insertStable less a (SliceStable less l)

/-- The type `Counter map[string]int`: the entries of the map, keys pairwise
distinct. -/
structure Counter where
  entries : List Entry
  nodupKeys : (entries.map Prod.fst).Nodup

namespace Counter

/-- The index expression `c[value]` in its two-result form. -/
def get (c : Counter) (value : Token) : Option Int :=
  lookupEntry value c.entries

/-- The assignment `c[value] = x`. -/
def set (c : Counter) (value : Token) (x : Int) : Counter :=
  ⟨assignEntry value x c.entries, by
    have key : ∀ es : List Entry, (assignEntry value x es).map Prod.fst =
        if value ∈ es.map Prod.fst then es.map Prod.fst else es.map Prod.fst ++ [value] := by
      intro es
      induction es with
      | nil => simp [assignEntry]
      | cons e es ih =>
        by_cases h : e.1 = value
        · simp [assignEntry, h]
        · have h2 : ¬ value = e.1 := fun h3 => h h3.symm
          by_cases hm : value ∈ es.map Prod.fst
          · rw [if_pos hm] at ih
            simp only [assignEntry, if_neg h, List.map_cons, ih]
            rw [if_pos (List.mem_cons_of_mem _ hm)]
          · rw [if_neg hm] at ih
            simp only [assignEntry, if_neg h, List.map_cons, ih]
            rw [if_neg (by simp only [List.mem_cons, not_or]; exact ⟨h2, hm⟩)]
            rfl
    rw [key]
    split
    · exact c.nodupKeys
    · rename_i hm
      rw [List.nodup_append]
      refine ⟨c.nodupKeys, List.nodup_singleton _, ?_⟩
      intro a ha hb
      simp only [List.mem_singleton] at hb
      subst hb
      exact hm ha⟩

/-- The keys of the map. -/
def keys (c : Counter) : List Token :=
  c.entries.map Prod.fst

/-- Function `func New() Counter`. -/
def New : Counter :=
  ⟨[], List.nodup_nil⟩

/-- Method `func (c Counter) Len() int`. -/
def Len (c : Counter) : Int :=
  (c.entries.length : Int)

/-- Method `func (c Counter) Has(value string) bool`. -/
def Has (c : Counter) (value : Token) : Bool :=
  match c.get value with
  | some _ => true
  | none => false

/-- Method `func (c Counter) Count(value string) int`. -/
def Count (c : Counter) (value : Token) : Int :=
  match c.get value with
  | some i => i
  | none => 0

/-- Method `func (c Counter) Increment(value string)`. -/
def Increment (c : Counter) (value : Token) : Counter :=
  match c.get value with
  | some count => c.set value (wrapInt (count + 1))
  | none => c.set value 1

/-- One `for value, frequency := range c` loop: the entries of `c` in the order
in which the loop visits them. -/
structure Range (c : Counter) where
  items : List Entry
  perm : items.Perm c.entries

/-- Method `func (c Counter) All(s bool) []string`, its `range` loop visiting the
entries in the order `r`. -/
def All (c : Counter) (r : Range c) (s : Bool) : List Token :=
  let values := r.items.map Prod.fst
  if s then SliceStable (fun a b => decide (a < b)) values else values

/-- Method `func (c Counter) Top(n int, min int, s bool) []string`, its `range` loop
visiting the entries in the order `r`. -/
def Top (c : Counter) (r : Range c) (n min : Int) (s : Bool) : List Token :=
  if n = 0 then []
  else
    let items := r.items.filter (fun e => decide (e.2 ≥ min))
    let items := if s then SliceStable (fun a b => decide (a.2 > b.2)) items else items
    if n > 0 ∧ n < (items.length : Int) then (items.map Prod.fst).take n.toNat
    else items.map Prod.fst

/-- Method `func (c Counter) Bottom(n int, max int, s bool) []string`, its `range` loop
visiting the entries in the order `r`. -/
def Bottom (c : Counter) (r : Range c) (n max : Int) (s : Bool) : List Token :=
  if n = 0 then []
  else
    let items := r.items.filter (fun e => decide (max < 0 ∨ e.2 ≤ max))
    let items := if s then SliceStable (fun a b => decide (a.2 < b.2)) items else items
    if n > 0 ∧ n < (items.length : Int) then (items.map Prod.fst).take n.toNat
    else items.map Prod.fst

/-- The counter obtained from `New()` by calling `Increment` on each element of
`ts`, first to last. -/
def incrementAll (ts : List Token) : Counter :=
  ts.foldl Increment New

/-- The loop that visits the entries in the order of `c.entries`. -/
def Range.id (c : Counter) : Range c :=
  ⟨c.entries, List.Perm.refl _⟩

/-- The number of keys whose count is at least `min`, the threshold of `Top`. -/
def passTop (c : Counter) (min : Int) : Nat :=
  (c.keys.filter (fun k => decide (c.Count k ≥ min))).length

/-- The number of keys that pass the threshold of `Bottom`: all of them when
`max` is negative, else those whose count is at most `max`. -/
def passBottom (c : Counter) (max : Int) : Nat :=
  (c.keys.filter (fun k => decide (max < 0 ∨ c.Count k ≤ max))).length

end Counter

/-- The common shape of `Top` and `Bottom`: filter the visited entries by
`keep`, sort them by `less` when `s` is set. -/
def arranged (keep : Entry → Bool) (less : Entry → Entry → Bool) (its : List Entry)
    (s : Bool) : List Entry :=
  if s then SliceStable less (its.filter keep) else its.filter keep

/-- The number of leading items that `Top` and `Bottom` return for a non-zero
`n` when `len` items passed the filter. -/
def cut (n : Int) (len : Nat) : Nat :=
  if 0 < n then n.toNat else len

/-- The body shared by `Top` and `Bottom`, the filter and the comparison
function left open. -/
def selectTokens (keep : Entry → Bool) (less : Entry → Entry → Bool) (its : List Entry)
    (n : Int) (s : Bool) : List Token :=
  if n = 0 then []
  else
    let items := its.filter keep
    let items := if s then SliceStable less items else items
    if n > 0 ∧ n < (items.length : Int) then (items.map Prod.fst).take n.toNat
    else items.map Prod.fst

/-- The bytes of `foo`. -/
def foo : Token := [102, 111, 111]

/-- The bytes of `bar`. -/
def bar : Token := [98, 97, 114]

/-- The counter of the package tests: `foo` ten times, then `bar` five times. -/
def fooBar : Counter :=
  Counter.incrementAll (List.replicate 10 foo ++ List.replicate 5 bar)

/-- The counter holding `foo` and `bar` once each. -/
def tie : Counter :=
  Counter.incrementAll [foo, bar]

/-- A loop over `tie` that visits `bar` first. -/
def tieReverse : tie.Range :=
  ⟨[(bar, 1), (foo, 1)], by decide⟩

/-- A loop over `fooBar` that visits `bar` first. -/
def fooBarReverse : fooBar.Range :=
  ⟨[(bar, 5), (foo, 10)], by decide⟩

/-- Token `a` stands in front of token `b` in the list `l`. -/
def Before (a b : Token) (l : List Token) : Prop :=
  List.Sublist [a, b] l

/-- A call of one method of the package on a counter. -/
inductive Call
  | Increment (value : Token)
  | Count (value : Token)
  | Has (value : Token)
  | Len
  | All (s : Bool)
  | Top (n min : Int) (s : Bool)
  | Bottom (n max : Int) (s : Bool)

/-- The map after a call. `Increment` is the only method with an assignment to
the map; the other methods read it (`c[value]`, `len(c)`, `range c`) and leave
it as it is. -/
def Call.apply (c : Counter) : Call → Counter
  | Call.Increment value => c.Increment value
  | Call.Count _ => c
  | Call.Has _ => c
  | Call.Len => c
  | Call.All _ => c
  | Call.Top _ _ _ => c
  | Call.Bottom _ _ _ => c

/-- The counter reached from `New()` by a sequence of calls. -/
def runCalls (calls : List Call) : Counter :=
  calls.foldl Call.apply Counter.New

/-- The tokens of the `Increment` calls of a sequence of calls, in order. -/
def incremented : List Call → List Token
  | [] => []
  | Call.Increment value :: calls => value :: incremented calls
  | _ :: calls => incremented calls

/-- The error values of `cmd/gocounter` and of `CountFiles`, one constructor for
each place where the source creates or wraps an error. -/
inductive Error
  | selectOne
  | selectOnlyOne
  | numberNotPositive (number : Int)
  | maximumZero (max : Int)
  | minimumNegative (shown : Int)
  | external (code : Nat)
  | scanning (cause : Error)
  | opening (cause : Error)
  | stating (cause : Error)
  | counting (cause : Error)
  deriving DecidableEq

/-- The values that `viper` returns for the keys read by the commands:
`GetBool` of `bytes`, `words`, `lines`, `skip-errors`, `sort` and `GetInt` of
`number`, `minimum`, `maximum`.  A key that no flag and no environment variable
sets reads as `false` or `0`. -/
structure Viper where
  bytes : Bool
  words : Bool
  lines : Bool
  skipErrors : Bool
  sort : Bool
  number : Int
  minimum : Int
  maximum : Int

/-- The number of splitting modes selected among bytes, words and lines. -/
def Viper.selected (v : Viper) : Nat :=
  (if v.bytes then 1 else 0) + (if v.words then 1 else 0) + (if v.lines then 1 else 0)

/-- Function `func checkDumpConfig(v *viper.Viper) error`. -/
def checkDumpConfig (v : Viper) : Option Error :=
  let s : Int := 0
  let s := if v.bytes then s + 1 else s
  let s := if v.words then s + 1 else s
  let s := if v.lines then s + 1 else s
  if s = 0 then some Error.selectOne
  else if s > 1 then some Error.selectOnlyOne
  else none

/-- Function `func checkAllConfig(v *viper.Viper) error`. -/
def checkAllConfig (v : Viper) : Option Error :=
  let s : Int := 0
  let s := if v.bytes then s + 1 else s
  let s := if v.words then s + 1 else s
  let s := if v.lines then s + 1 else s
  if s = 0 then some Error.selectOne
  else if s > 1 then some Error.selectOnlyOne
  else none

/-- Function `func checkBottomConfig(v *viper.Viper) error`. -/
def checkBottomConfig (v : Viper) : Option Error :=
  let number := v.number
  if number ≤ 0 then some (Error.numberNotPositive number)
  else
    let max := v.maximum
    if max = 0 then some (Error.maximumZero max)
    else none

/-- Function `func checkTopConfig(v *viper.Viper) error`. -/
def checkTopConfig (v : Viper) : Option Error :=
  let number := v.number
  if number ≤ 0 then some (Error.numberNotPositive number)
  else
    let min := v.minimum
    if min < 0 then some (Error.minimumNegative number)
    else none

/-- The four query commands registered in `main`. -/
inductive Command
  | dump
  | all
  | bottom
  | top
  deriving DecidableEq

/-- The configuration check that the `RunE` function of each command calls
before `countFiles`. -/
def Command.check : Command → Viper → Option Error
  | Command.dump, v => checkDumpConfig v
  | Command.all, v => checkAllConfig v
  | Command.bottom, v => checkBottomConfig v
  | Command.top, v => checkTopConfig v

/-- How far the `RunE` function of a command gets with `nargs` arguments: it
prints the usage when there is none, returns the error of the configuration
check, or goes on to `countFiles`. -/
inductive Progress
  | usage
  | rejected (err : Error)
  | tokenizing
  deriving DecidableEq

/-- The start of the `RunE` function of a command, up to the call of
`countFiles`. -/
def Command.start (cmd : Command) (nargs : Nat) (v : Viper) : Progress :=
  if nargs = 0 then Progress.usage
  else
    match cmd.check v with
    | some errConfig => Progress.rejected errConfig
    | none => Progress.tokenizing

/-- The query of the `all` command: `words.All(v.GetBool(flagSort))`. -/
def allValues (v : Viper) (words : Counter) (r : words.Range) : List Token :=
  words.All r v.sort

/-- The query of the `bottom` command:
`words.Bottom(v.GetInt(flagNumber), v.GetInt(flagMaximum), v.GetBool(flagSort))`. -/
def bottomValues (v : Viper) (words : Counter) (r : words.Range) : List Token :=
  words.Bottom r v.number v.maximum v.sort

/-- The query of the `top` command:
`words.Top(v.GetInt(flagNumber), v.GetInt(flagMaximum), v.GetBool(flagSort))`. -/
def topValues (v : Viper) (words : Counter) (r : words.Range) : List Token :=
  words.Top r v.number v.maximum v.sort

/-- A `top` configuration with no splitting mode selected: `-n 1`, the other
keys at their defaults. -/
def topNoSplit : Viper :=
  ⟨false, false, false, false, false, 1, 0, 0⟩

/-- A `bottom` configuration with words and lines both selected: `-w -l -n 1`,
the maximum at its default `-1`. -/
def bottomTwoSplits : Viper :=
  ⟨false, true, true, false, false, 1, 0, -1⟩

/-- The `top` configuration of `-w -s -n 2 -m 6`; the key `maximum` is not a flag
of the `top` command and reads as zero. -/
def topMinSix : Viper :=
  ⟨false, true, false, false, true, 2, 6, 0⟩

/-- A Go `rune` as its code point.  The runes that `utf8.DecodeRune` returns lie
between `0` and `0x10FFFF`. -/
abbrev Rune := Nat

/-- The constant `utf8.RuneError`, `U+FFFD`. -/
def RuneError : Rune := 65533

/-- The three results `(advance int, token []byte, err error)` of a
`bufio.SplitFunc`; for `token` and `err`, `none` is `nil`. -/
structure SplitResult where
  advance : Int
  token : Option Token
  err : Option Error
  deriving DecidableEq

/-- A `bufio.SplitFunc`, called with `data` and `atEOF`.  The result `none`
stands for a call that does not return: a slice expression or an index out of
range, or a loop that does not come to its end. -/
abbrev SplitFunc := Token → Bool → Option SplitResult

/-- The slice expression `data[lo:hi]`, which needs `0 <= lo <= hi <= len(data)`. -/
def slice (data : Token) (lo hi : Int) : Option Token :=
  if 0 ≤ lo ∧ lo ≤ hi ∧ hi ≤ (data.length : Int) then
    some ((data.take hi.toNat).drop lo.toNat)
  else none

/-- The index expression `data[i]`, which needs `0 <= i < len(data)`. -/
def byteAt (data : Token) (i : Int) : Option (Fin 256) :=
  if 0 ≤ i ∧ i < (data.length : Int) then data.get? i.toNat else none

/-- The library function `bytes.IndexByte`: the index of the first instance of
`c` in `b`, or `-1` when `c` is not present. -/
def IndexByte (b : Token) (c : Fin 256) : Int :=
  if c ∈ b then (b.indexOf c : Int) else -1

/-- The two-byte case of `utf8.DecodeRune`: the first byte `p0` is in
`0xC2..0xDF` and `rest` are the bytes behind it. -/
def decodeTwo (p0 : Fin 256) : Token → Rune × Nat
  | b1 :: _ =>
    if 128 ≤ b1.val ∧ b1.val ≤ 191 then ((p0.val % 32) * 64 + b1.val % 64, 2)
    else (RuneError, 1)
  | [] => (RuneError, 1)

/-- The three-byte case of `utf8.DecodeRune`: the first byte `p0` is in
`0xE0..0xEF`; the second byte is in `0xA0..0xBF` behind `0xE0`, in `0x80..0x9F`
behind `0xED`, and in `0x80..0xBF` otherwise. -/
def decodeThree (p0 : Fin 256) : Token → Rune × Nat
  | b1 :: b2 :: _ =>
    if (if p0.val = 224 then 160 else 128) ≤ b1.val ∧
        b1.val ≤ (if p0.val = 237 then 159 else 191) ∧
        128 ≤ b2.val ∧ b2.val ≤ 191 then
      ((p0.val % 16) * 4096 + (b1.val % 64) * 64 + b2.val % 64, 3)
    else (RuneError, 1)
  | _ => (RuneError, 1)

/-- The four-byte case of `utf8.DecodeRune`: the first byte `p0` is in
`0xF0..0xF4`; the second byte is in `0x90..0xBF` behind `0xF0`, in `0x80..0x8F`
behind `0xF4`, and in `0x80..0xBF` otherwise. -/
def decodeFour (p0 : Fin 256) : Token → Rune × Nat
  | b1 :: b2 :: b3 :: _ =>
    if (if p0.val = 240 then 144 else 128) ≤ b1.val ∧
        b1.val ≤ (if p0.val = 244 then 143 else 191) ∧
        128 ≤ b2.val ∧ b2.val ≤ 191 ∧ 128 ≤ b3.val ∧ b3.val ≤ 191 then
      ((p0.val % 8) * 262144 + (b1.val % 64) * 4096 + (b2.val % 64) * 64 + b3.val % 64, 4)
    else (RuneError, 1)
  | _ => (RuneError, 1)

/-- The library function `utf8.DecodeRune`: the first rune of `p` and its width
in bytes; `(RuneError, 0)` for the empty input and `(RuneError, 1)` for an
encoding that is not valid UTF-8. -/
def decodeRune : Token → Rune × Nat
  | [] => (RuneError, 0)
  | p0 :: rest =>
    if p0.val < 128 then (p0.val, 1)
    else if p0.val < 194 then (RuneError, 1)
    else if p0.val < 224 then decodeTwo p0 rest
    else if p0.val < 240 then decodeThree p0 rest
    else if p0.val < 245 then decodeFour p0 rest
    else (RuneError, 1)

/-- The library function `unicode.IsSpace`: the Latin-1 spaces `\t`, `\n`, `\v`,
`\f`, `\r`, the space, `U+0085` and `U+00A0`, and above Latin-1 the code points of
the property `White_Space`. -/
def IsSpace (r : Rune) : Bool :=
  if r ≤ 255 then
    decide (r = 9 ∨ r = 10 ∨ r = 11 ∨ r = 12 ∨ r = 13 ∨ r = 32 ∨ r = 133 ∨ r = 160)
  else
    decide (r = 5760 ∨ (8192 ≤ r ∧ r ≤ 8202) ∨ r = 8232 ∨ r = 8233 ∨ r = 8239 ∨ r = 8287 ∨
      r = 12288)

/-- The code points of the `case` list of the delimiter function in `countFiles`:
`!`, `,`, `;`, `(`, `)`, `{`, `}`, `[`, `]`, `<`, `>`, the backquote, `|`, `=`. -/
def punctuation : List Rune :=
  [33, 44, 59, 40, 41, 123, 125, 91, 93, 60, 62, 96, 124, 61]

/-- The delimiter function that `countFiles` passes to `scanWords`. -/
def wordDelim (r : Rune) : Bool :=
  if IsSpace r then true
  else if r ∈ punctuation then true
  else false

/-- Function `func dropCarriageReturn(data []byte) []byte`. -/
def dropCarriageReturn (data : Token) : Option Token :=
  if (data.length : Int) > 0 then
    match byteAt data ((data.length : Int) - 1) with
    | none => none
    | some b => if b = 13 then slice data 0 ((data.length : Int) - 1) else some data
  else some data

/-- The split function returned by `func scanLines(separator byte, dropCR bool)`. -/
def scanLines (separator : Fin 256) (dropCR : Bool) : SplitFunc := fun data atEOF =>
  if atEOF = true ∧ data.length = 0 then some ⟨0, none, none⟩
  else
    let i := IndexByte data separator
    if i ≥ 0 then
      match slice data 0 i with
      | none => none
      | some line =>
        if dropCR then
          match dropCarriageReturn line with
          | none => none
          | some token => some ⟨i + 1, some token, none⟩
        else some ⟨i + 1, some line, none⟩
    else if atEOF then
      if dropCR then
        match dropCarriageReturn data with
        | none => none
        | some token => some ⟨(data.length : Int), some token, none⟩
      else some ⟨(data.length : Int), some data, none⟩
    else some ⟨0, none, none⟩

/-- The first loop of `scanWords`, which skips the leading delimiters: the value
of `start` when the loop ends, the loop being entered with `start`. -/
def skipDelims (delim : Rune → Bool) (data : Token) : Nat → Int → Option Int
  | 0, _ => none
  | fuel + 1, start =>
    if start < (data.length : Int) then
      match slice data start (data.length : Int) with
      | none => none
      | some rest =>
        if !delim (decodeRune rest).1 then some start
        else skipDelims delim data fuel (start + ((decodeRune rest).2 : Int))
    else some start

/-- The second loop of `scanWords`, entered with `i`: `some res` when the loop
returns `res` from the function at a delimiter, `none` when the loop ends at the
end of `data`. -/
def findDelim (delim : Rune → Bool) (data : Token) (start : Int) :
    Nat → Int → Option (Option SplitResult)
  | 0, _ => none
  | fuel + 1, i =>
    if i < (data.length : Int) then
      match slice data i (data.length : Int) with
      | none => none
      | some rest =>
        if delim (decodeRune rest).1 then
          match slice data start i with
          | none => none
          | some token => some (some ⟨i + ((decodeRune rest).2 : Int), some token, none⟩)
        else findDelim delim data start fuel (i + ((decodeRune rest).2 : Int))
    else some none

/-- The split function returned by `func scanWords(delim func(r rune) bool)`.
Each loop is run for at most `len(data) + 1` rounds. -/
def scanWords (delim : Rune → Bool) : SplitFunc := fun data atEOF =>
  match skipDelims delim data (data.length + 1) 0 with
  | none => none
  | some start =>
    match findDelim delim data start (data.length + 1) start with
    | none => none
    | some (some res) => some res
    | some none =>
      if atEOF = true ∧ (data.length : Int) > start then
        match slice data start (data.length : Int) with
        | none => none
        | some token => some ⟨(data.length : Int), some token, none⟩
      else some ⟨start, none, none⟩

/-- The library function `bufio.ScanBytes`, the split function that `countFiles`
starts from: each byte is a token. -/
def ScanBytes : SplitFunc := fun data atEOF =>
  if atEOF = true ∧ data.length = 0 then some ⟨0, none, none⟩
  else
    match slice data 0 1 with
    | none => none
    | some token => some ⟨1, some token, none⟩

/-- The choice of the split function in `countFiles`. -/
def splitFuncOf (v : Viper) : SplitFunc :=
  let splitFunc := ScanBytes
  let splitFunc := if v.words then scanWords wordDelim else splitFunc
  let splitFunc := if v.lines then scanLines 10 true else splitFunc
  splitFunc

/-- Repeated application of a split function to the remaining input with
`atEOF = true`, as a `bufio.Scanner` does once its reader is at the end and the
whole input is in its buffer: a returned token is emitted and the input advanced,
and the first call that returns no token or an error ends the scan.  At most
`fuel` calls are made; `none` when a call does not return, when its advance is
out of range, or when the calls are used up. -/
def scanTokens (split : SplitFunc) : Nat → Token → Option (List Token)
  | 0, _ => none
  | fuel + 1, data =>
    match split data true with
    | none => none
    | some res =>
      match res.err with
      | some _ => some []
      | none =>
        match res.token with
        | none => some []
        | some token =>
          match slice data res.advance (data.length : Int) with
          | none => none
          | some rest =>
            match scanTokens split fuel rest with
            | none => none
            | some tokens => some (token :: tokens)

/-- The tokens that a split function yields on a whole input: `scanTokens` with
`len(data) + 1` calls. -/
def tokensOf (split : SplitFunc) (data : Token) : Option (List Token) :=
  scanTokens split (data.length + 1) data

/-- The bytes of `a, b! c`. -/
def scenarioD : Token := [97, 44, 32, 98, 33, 32, 99]

/-- The bytes of `x\r\ny\n`. -/
def scenarioE : Token := [120, 13, 10, 121, 10]

/-- The decoding of an input into code points, as `scanWords` reads it: each
element is a rune returned by `utf8.DecodeRune` with the bytes it was decoded
from.  At most `fuel` runes are decoded. -/
def chunksAux : Nat → Token → List (Rune × Token)
  | 0, _ => []
  | _ + 1, [] => []
  | fuel + 1, b :: bs =>
    ((decodeRune (b :: bs)).1, (b :: bs).take (decodeRune (b :: bs)).2) ::
      chunksAux fuel ((b :: bs).drop (decodeRune (b :: bs)).2)

/-- The code points of an input, each with its bytes. -/
def chunks (data : Token) : List (Rune × Token) :=
  chunksAux data.length data

/-- The bytes of a run of code points. -/
def bytesOf (run : List (Rune × Token)) : Token :=
  (run.map Prod.snd).flatten

/-- The maximal runs of non-delimiter code points in a sequence of code points:
the sequence is split at every delimiter and the empty pieces are dropped. -/
def runsOf (delim : Rune → Bool) (cs : List (Rune × Token)) : List (List (Rune × Token)) :=
  (cs.splitOnP (fun c => delim c.1)).filter (fun run => !run.isEmpty)

/-- The maximal runs of non-delimiter code points of an input, in order: the
code points are split at every delimiter, the empty pieces are dropped, and
each remaining piece is given as its bytes. -/
def wordsSpec (delim : Rune → Bool) (data : Token) : List Token :=
  (runsOf delim (chunks data)).map bytesOf

/-- A segment with one trailing `\r` byte removed, when it ends with one. -/
def stripCR (seg : Token) : Token :=
  if seg.getLast? = some 13 then seg.dropLast else seg

/-- The lines of an input, in order: the segments between the `\n` separators,
the last one (behind the final separator, or the whole input when there is no
separator) left out when it is empty, each with a trailing `\r` removed. -/
def linesSpec (data : Token) : List Token :=
  let segs := data.splitOnP (fun b => decide (b = 10))
  (if segs.getLast? = some [] then segs.dropLast else segs).map stripCR

/-- What the run of one `bufio.Scanner` over a source gives: the tokens of the
calls of `Scan()` that returned true, in order, and the value of `Err()` after
the call that returned false. -/
structure Scanned where
  tokens : List Token
  err : Option Error

/-- One element of `files` with what the operating system delivers when the loop
of `CountFiles` reaches it: `stdin` for the names `-` and `stdin`, with the run
of the scanner over the standard input for each split function; for another
name, a failure of `os.Open`, a failure of `Stat`, a file that is not regular,
or a regular file with the run of the scanner over it. -/
inductive Source
  | stdin (scan : SplitFunc → Scanned)
  | openFails (err : Error)
  | statFails (err : Error)
  | notRegular
  | regular (scan : SplitFunc → Scanned)

/-- The loop `for _, f := range files` of `CountFiles`, entered with the counter
`tokens`. -/
def CountFilesLoop (splitFunc : SplitFunc) (skipErrors : Bool) :
    List Source → Counter → Except Error Counter
  | [], tokens => Except.ok tokens
  | Source.stdin scan :: files, tokens =>
    match (scan splitFunc).err with
    | some err =>
      if !skipErrors then Except.error (Error.scanning err)
      else CountFilesLoop splitFunc skipErrors files
        ((scan splitFunc).tokens.foldl Counter.Increment tokens)
    | none =>
      CountFilesLoop splitFunc skipErrors files
        ((scan splitFunc).tokens.foldl Counter.Increment tokens)
  | Source.openFails err :: files, tokens =>
    if skipErrors then CountFilesLoop splitFunc skipErrors files tokens
    else Except.error (Error.opening err)
  | Source.statFails err :: files, tokens =>
    if skipErrors then CountFilesLoop splitFunc skipErrors files tokens
    else Except.error (Error.stating err)
  | Source.notRegular :: files, tokens => CountFilesLoop splitFunc skipErrors files tokens
  | Source.regular scan :: files, tokens =>
    match (scan splitFunc).err with
    | some err =>
      if !skipErrors then Except.error (Error.scanning err)
      else CountFilesLoop splitFunc skipErrors files
        ((scan splitFunc).tokens.foldl Counter.Increment tokens)
    | none =>
      CountFilesLoop splitFunc skipErrors files
        ((scan splitFunc).tokens.foldl Counter.Increment tokens)

/-- Function `func CountFiles(files []string, splitFunc bufio.SplitFunc,
skipErrors bool) (Counter, error)`; an error result carries no counter. -/
def CountFiles (files : List Source) (splitFunc : SplitFunc) (skipErrors : Bool) :
    Except Error Counter :=
  CountFilesLoop splitFunc skipErrors files Counter.New

/-- The tokens that the scanner returned for a source: none when the source
could not be opened or examined or is not a regular file. -/
def Source.yielded (splitFunc : SplitFunc) : Source → List Token
  | Source.stdin scan => (scan splitFunc).tokens
  | Source.openFails _ => []
  | Source.statFails _ => []
  | Source.notRegular => []
  | Source.regular scan => (scan splitFunc).tokens

/-- The error with which a source fails to open, to stat or to scan, as
`CountFiles` wraps it; `none` for a source that does not fail. -/
def Source.failure (splitFunc : SplitFunc) : Source → Option Error
  | Source.stdin scan => (scan splitFunc).err.map Error.scanning
  | Source.openFails err => some (Error.opening err)
  | Source.statFails err => some (Error.stating err)
  | Source.notRegular => none
  | Source.regular scan => (scan splitFunc).err.map Error.scanning

/-- What is asked of the result of one call of a split function on `data`: no error,
an advance between `0` and `len(data)`, and a positive advance with every
token. -/
def SplitResult.Safe (res : SplitResult) (data : Token) : Prop :=
  res.err = none ∧ 0 ≤ res.advance ∧ res.advance ≤ (data.length : Int) ∧
    (res.token ≠ none → 0 < res.advance)

section StableSort

variable {α β : Type} [LinearOrder β]

theorem perm_insertStable (less : α → α → Bool) (a : α) (l : List α) :
    (insertStable less a l).Perm (a :: l) := by
  induction l with
  | nil => exact List.Perm.refl _
  | cons b l ih =>
    cases h : less b a with
    | true =>
      simp only [insertStable, h, if_true]
      exact (List.Perm.cons b ih).trans (List.Perm.swap a b l)
    | false =>
      simp only [insertStable, h, Bool.false_eq_true, if_false]
      exact List.Perm.refl _

theorem perm_SliceStable (less : α → α → Bool) (l : List α) :
    (SliceStable less l).Perm l := by
  induction l with
  | nil => exact List.Perm.refl _
  | cons a l ih =>
    exact (perm_insertStable less a (SliceStable less l)).trans (List.Perm.cons a ih)

theorem pairwise_insertStable (f : α → β) (less : α → α → Bool)
    (hless : ∀ a b, less a b = true ↔ f a < f b) (a : α) (l : List α)
    (hl : l.Pairwise (fun x y => f x ≤ f y)) :
    (insertStable less a l).Pairwise (fun x y => f x ≤ f y) := by
  induction l with
  | nil => simp [insertStable]
  | cons b l ih =>
    rw [List.pairwise_cons] at hl
    cases h : less b a with
    | true =>
      simp only [insertStable, h, if_true]
      rw [List.pairwise_cons]
      refine ⟨?_, ih hl.2⟩
      intro y hy
      rcases List.mem_cons.1 ((perm_insertStable less a l).mem_iff.1 hy) with hya | hyl
      · subst hya
        exact le_of_lt ((hless b y).1 h)
      · exact hl.1 y hyl
    | false =>
      simp only [insertStable, h, Bool.false_eq_true, if_false]
      have hab : f a ≤ f b := by
        by_contra hc
        have := (hless b a).2 (lt_of_not_le hc)
        rw [h] at this
        exact Bool.false_ne_true this
      rw [List.pairwise_cons]
      refine ⟨?_, List.pairwise_cons.2 hl⟩
      intro y hy
      rcases List.mem_cons.1 hy with hyb | hyl
      · subst hyb; exact hab
      · exact le_trans hab (hl.1 y hyl)

/-- The result of `SliceStable` is sorted by the key of `less`. -/
theorem pairwise_SliceStable (f : α → β) (less : α → α → Bool)
    (hless : ∀ a b, less a b = true ↔ f a < f b) (l : List α) :
    (SliceStable less l).Pairwise (fun x y => f x ≤ f y) := by
  induction l with
  | nil => exact List.Pairwise.nil
  | cons a l ih => exact pairwise_insertStable f less hless a _ ih

theorem filter_insertStable (f : α → β) (less : α → α → Bool)
    (hless : ∀ a b, less a b = true ↔ f a < f b) (v : β) (a : α) (l : List α) :
    (insertStable less a l).filter (fun x => decide (f x = v)) =
      (a :: l).filter (fun x => decide (f x = v)) := by
  induction l with
  | nil => rfl
  | cons b l ih =>
    cases h : less b a with
    | true =>
      have hlt : f b < f a := (hless b a).1 h
      simp only [insertStable, h, if_true]
      rw [List.filter_cons, ih]
      by_cases hb : f b = v
      · have ha : ¬ f a = v := fun ha => by rw [hb, ha] at hlt; exact lt_irrefl _ hlt
        simp [List.filter_cons, hb, ha]
      · simp [List.filter_cons, hb]
    | false =>
      simp only [insertStable, h, Bool.false_eq_true, if_false]

/-- Stability: among the elements of one key, `SliceStable` keeps the order of
its input. -/
theorem filter_SliceStable (f : α → β) (less : α → α → Bool)
    (hless : ∀ a b, less a b = true ↔ f a < f b) (v : β) (l : List α) :
    (SliceStable less l).filter (fun x => decide (f x = v)) =
      l.filter (fun x => decide (f x = v)) := by
  induction l with
  | nil => rfl
  | cons a l ih =>
    show (insertStable less a (SliceStable less l)).filter _ = _
    rw [filter_insertStable f less hless, List.filter_cons, List.filter_cons, ih]

end StableSort

theorem lookup_assignEntry (t k : Token) (x : Int) (es : List Entry) :
    lookupEntry t (assignEntry k x es) = if k = t then some x else lookupEntry t es := by
  induction es with
  | nil => simp [assignEntry, lookupEntry]
  | cons e es ih =>
    by_cases h : e.1 = k
    · by_cases h2 : k = t
      · simp [assignEntry, lookupEntry, h, h2]
      · simp [assignEntry, lookupEntry, h, h2]
    · by_cases h2 : k = t
      · subst h2
        simp [assignEntry, lookupEntry, h, ih]
      · simp [assignEntry, lookupEntry, h, h2, ih]

theorem lookupEntry_eq_none {t : Token} {es : List Entry} :
    lookupEntry t es = none ↔ t ∉ es.map Prod.fst := by
  induction es with
  | nil => simp [lookupEntry]
  | cons e es ih =>
    by_cases h : e.1 = t
    · simp [lookupEntry, h]
    · have h2 : ¬ t = e.1 := fun h3 => h h3.symm
      simp [lookupEntry, h, h2, ih]

theorem lookupEntry_eq_some {t : Token} {v : Int} {es : List Entry}
    (hn : (es.map Prod.fst).Nodup) : lookupEntry t es = some v ↔ (t, v) ∈ es := by
  induction es with
  | nil => simp [lookupEntry]
  | cons e es ih =>
    obtain ⟨k, w⟩ := e
    simp only [List.map_cons, List.nodup_cons] at hn
    by_cases h : k = t
    · subst h
      simp only [lookupEntry, if_true, Option.some.injEq, List.mem_cons, Prod.mk.injEq, true_and]
      constructor
      · intro h; exact Or.inl h.symm
      · rintro (h | h)
        · exact h.symm
        · exact absurd (List.mem_map_of_mem Prod.fst h) hn.1
    · have h2 : ¬ t = k := fun h3 => h h3.symm
      simp [lookupEntry, h, h2, ih hn.2]

namespace Counter

theorem get_Increment (c : Counter) (k t : Token) :
    (c.Increment k).get t =
      if k = t then some (match c.get k with | some v => wrapInt (v + 1) | none => 1)
      else c.get t := by
  unfold Increment
  cases hk : c.get k with
  | none => simp only [get, set, lookup_assignEntry]
  | some v => simp only [get, set, lookup_assignEntry]

theorem incrementAll_append (ts : List Token) (k : Token) :
    incrementAll (ts ++ [k]) = (incrementAll ts).Increment k := by
  simp [incrementAll, List.foldl_append]

theorem wrapInt_succ (x : Int) : wrapInt (wrapInt x + 1) = wrapInt (x + 1) := by
  unfold wrapInt
  omega

theorem wrapInt_of_lt {x : Int} (h0 : 0 ≤ x) (h : x < 9223372036854775808) : wrapInt x = x := by
  unfold wrapInt
  omega

/-- The stored value after a run of increments: absent when the token never
occurred, else the wrapped number of occurrences. -/
theorem get_incrementAll (ts : List Token) (t : Token) :
    (incrementAll ts).get t =
      if ts.count t = 0 then none else some (wrapInt (ts.count t : Int)) := by
  induction ts using List.reverseRecOn with
  | nil => simp [incrementAll, New, get, lookupEntry]
  | append_singleton ts k ih =>
    rw [incrementAll_append, get_Increment]
    by_cases h : k = t
    · subst h
      rw [if_pos rfl, ih]
      by_cases h0 : ts.count k = 0
      · simp [h0, wrapInt]
      · simp only [h0, if_false, List.count_append, List.count_singleton_self]
        rw [if_neg (by omega), wrapInt_succ]
        push_cast
        rfl
    · rw [if_neg h, ih]
      have : List.count t [k] = 0 := by
        rw [List.count_eq_zero]; simp; exact fun h2 => h h2.symm
      simp [List.count_append, this]

end Counter

section Select

theorem selectTokens_zero (keep : Entry → Bool) (less : Entry → Entry → Bool)
    (its : List Entry) (s : Bool) : selectTokens keep less its 0 s = [] := by
  simp [selectTokens]

theorem selectTokens_eq (keep : Entry → Bool) (less : Entry → Entry → Bool)
    (its : List Entry) (n : Int) (s : Bool) (hn : n ≠ 0) :
    selectTokens keep less its n s =
      ((arranged keep less its s).take (cut n (arranged keep less its s).length)).map
        Prod.fst := by
  unfold selectTokens
  rw [if_neg hn]
  show (if n > 0 ∧ n < ((arranged keep less its s).length : Int) then
      ((arranged keep less its s).map Prod.fst).take n.toNat
    else (arranged keep less its s).map Prod.fst) = _
  generalize arranged keep less its s = items
  unfold cut
  by_cases h : n > 0 ∧ n < (items.length : Int)
  · rw [if_pos h, if_pos h.1, List.map_take]
  · rw [if_neg h]
    by_cases h0 : 0 < n
    · rw [if_pos h0, List.take_of_length_le (by omega)]
    · rw [if_neg h0, List.take_length]

theorem perm_arranged (keep : Entry → Bool) (less : Entry → Entry → Bool)
    (its : List Entry) (s : Bool) : (arranged keep less its s).Perm (its.filter keep) := by
  unfold arranged
  cases s with
  | true => exact perm_SliceStable _ _
  | false => exact List.Perm.refl _

theorem mem_arranged (keep : Entry → Bool) (less : Entry → Entry → Bool)
    (its : List Entry) (s : Bool) (e : Entry) :
    e ∈ arranged keep less its s ↔ e ∈ its ∧ keep e = true := by
  rw [(perm_arranged keep less its s).mem_iff, List.mem_filter]

theorem length_arranged (keep : Entry → Bool) (less : Entry → Entry → Bool)
    (its : List Entry) (s : Bool) :
    (arranged keep less its s).length = (its.filter keep).length :=
  (perm_arranged keep less its s).length_eq

end Select

section SelectProps

variable (keep : Entry → Bool) (less : Entry → Entry → Bool) (its : List Entry)

/-- The entries that `selectTokens` returns for a non-zero `n`. -/
theorem selected_sublist (n : Int) (s : Bool) :
    ((arranged keep less its s).take (cut n (arranged keep less its s).length)).Sublist
      (arranged keep less its s) :=
  List.take_sublist _ _

theorem mem_selectTokens {n : Int} {s : Bool} {t : Token}
    (h : t ∈ selectTokens keep less its n s) : ∃ e ∈ its, keep e = true ∧ e.1 = t := by
  by_cases hn : n = 0
  · subst hn
    rw [selectTokens_zero] at h
    exact absurd h (List.not_mem_nil _)
  · rw [selectTokens_eq keep less its n s hn] at h
    obtain ⟨e, he, het⟩ := List.mem_map.1 h
    have he2 := (mem_arranged keep less its s e).1 ((selected_sublist keep less its n s).subset he)
    exact ⟨e, he2.1, he2.2, het⟩

theorem nodup_selectTokens (hnd : (its.map Prod.fst).Nodup) (n : Int) (s : Bool) :
    (selectTokens keep less its n s).Nodup := by
  by_cases hn : n = 0
  · subst hn
    rw [selectTokens_zero]
    exact List.nodup_nil
  · rw [selectTokens_eq keep less its n s hn]
    have h1 : ((arranged keep less its s).map Prod.fst).Nodup :=
      (((perm_arranged keep less its s).map Prod.fst).nodup_iff).2
        (hnd.sublist ((List.filter_sublist its).map Prod.fst))
    exact h1.sublist ((selected_sublist keep less its n s).map Prod.fst)

theorem selectTokens_pos_eq_take {n : Int} (hn : 0 < n) (s : Bool) :
    selectTokens keep less its n s = (selectTokens keep less its (-1) s).take n.toNat := by
  rw [selectTokens_eq keep less its n s (by omega),
    selectTokens_eq keep less its (-1) s (by omega)]
  have h1 : cut (-1) (arranged keep less its s).length = (arranged keep less its s).length := by
    simp [cut]
  have h2 : cut n (arranged keep less its s).length = n.toNat := by
    simp [cut, hn]
  rw [h1, h2, List.take_length, List.map_take]

theorem length_selectTokens {n : Int} (hn : n ≠ 0) (s : Bool) :
    (selectTokens keep less its n s).length = min (cut n (its.filter keep).length)
      (its.filter keep).length := by
  rw [selectTokens_eq keep less its n s hn, List.length_map, List.length_take,
    length_arranged]

theorem mem_selectTokens_of_all {n : Int} (s : Bool)
    (hn : n < 0 ∨ ((its.filter keep).length : Int) ≤ n) {e : Entry} (he : e ∈ its)
    (hk : keep e = true) : e.1 ∈ selectTokens keep less its n s := by
  by_cases h0 : n = 0
  · subst h0
    rcases hn with hn | hn
    · omega
    · have hlen : (its.filter keep).length = 0 := by omega
      have hmem : e ∈ its.filter keep := List.mem_filter.2 ⟨he, hk⟩
      rw [List.length_eq_zero] at hlen
      rw [hlen] at hmem
      exact absurd hmem (List.not_mem_nil _)
  · rw [selectTokens_eq keep less its n s h0]
    have hcut : (arranged keep less its s).length ≤ cut n (arranged keep less its s).length := by
      unfold cut
      rw [length_arranged]
      split
      · omega
      · exact le_refl _
    rw [List.take_of_length_le hcut]
    exact List.mem_map_of_mem Prod.fst ((mem_arranged keep less its s e).2 ⟨he, hk⟩)

variable {β : Type} [LinearOrder β] (f : Entry → β)

theorem pairwise_selected (hless : ∀ a b, less a b = true ↔ f a < f b) (n : Int) :
    ((arranged keep less its true).take (cut n (arranged keep less its true).length)).Pairwise
      (fun x y => f x ≤ f y) := by
  have h : (arranged keep less its true).Pairwise (fun x y => f x ≤ f y) := by
    unfold arranged
    exact pairwise_SliceStable f less hless _
  exact h.sublist (selected_sublist keep less its n true)

/-- A passing entry that a sorted selection leaves out comes, in the order of
`less`, behind every entry that the selection returns. -/
theorem le_of_not_selected (hless : ∀ a b, less a b = true ↔ f a < f b) {n : Int}
    (hn : n ≠ 0) {e : Entry} (he : e ∈ its) (hk : keep e = true)
    (hout : e.1 ∉ selectTokens keep less its n true) :
    ∀ x ∈ (arranged keep less its true).take (cut n (arranged keep less its true).length),
      f x ≤ f e := by
  intro x hx
  have hsorted : (arranged keep less its true).Pairwise (fun x y => f x ≤ f y) := by
    unfold arranged
    exact pairwise_SliceStable f less hless _
  rw [selectTokens_eq keep less its n true hn] at hout
  have hmem : e ∈ arranged keep less its true := (mem_arranged keep less its true e).2 ⟨he, hk⟩
  rw [← List.take_append_drop (cut n (arranged keep less its true).length)
    (arranged keep less its true)] at hmem hsorted
  rcases List.mem_append.1 hmem with h1 | h2
  · exact absurd (List.mem_map_of_mem Prod.fst h1) hout
  · exact (List.pairwise_append.1 hsorted).2.2 x hx e h2

end SelectProps

namespace Counter

theorem Top_eq_selectTokens (c : Counter) (r : Range c) (n min : Int) (s : Bool) :
    c.Top r n min s =
      selectTokens (fun e => decide (e.2 ≥ min)) (fun a b => decide (a.2 > b.2)) r.items n s :=
  rfl

theorem Bottom_eq_selectTokens (c : Counter) (r : Range c) (n max : Int) (s : Bool) :
    c.Bottom r n max s =
      selectTokens (fun e => decide (max < 0 ∨ e.2 ≤ max)) (fun a b => decide (a.2 < b.2))
        r.items n s :=
  rfl

theorem get_of_mem (c : Counter) {e : Entry} (h : e ∈ c.entries) : c.get e.1 = some e.2 :=
  (lookupEntry_eq_some c.nodupKeys).2 h

theorem Count_of_mem (c : Counter) {e : Entry} (h : e ∈ c.entries) : c.Count e.1 = e.2 := by
  unfold Count
  rw [c.get_of_mem h]

theorem mem_keys_of_mem (c : Counter) {e : Entry} (h : e ∈ c.entries) : e.1 ∈ c.keys :=
  List.mem_map_of_mem Prod.fst h

theorem mem_entries_of_mem_keys (c : Counter) {k : Token} (h : k ∈ c.keys) :
    (k, c.Count k) ∈ c.entries := by
  obtain ⟨e, he, hk⟩ := List.mem_map.1 h
  subst hk
  rw [c.Count_of_mem he]
  exact he

theorem Range.mem_iff {c : Counter} (r : Range c) (e : Entry) : e ∈ r.items ↔ e ∈ c.entries :=
  r.perm.mem_iff

theorem Range.nodup_keys {c : Counter} (r : Range c) : (r.items.map Prod.fst).Nodup :=
  ((r.perm.map Prod.fst).nodup_iff).2 c.nodupKeys

end Counter

namespace Counter

theorem map_Count_of_subset (c : Counter) {l : List Entry} (h : ∀ e ∈ l, e ∈ c.entries) :
    (l.map Prod.fst).map c.Count = l.map Prod.snd := by
  rw [List.map_map]
  apply List.map_congr_left
  intro e he
  exact c.Count_of_mem (h e he)

/-- Counting the keys whose count satisfies `p` is counting the visited entries
whose frequency satisfies `p`. -/
theorem length_filter_keys (c : Counter) (r : Range c) (p : Int → Bool) :
    (c.keys.filter (fun k => p (c.Count k))).length =
      (r.items.filter (fun e => p e.2)).length := by
  unfold keys
  rw [List.filter_map, List.length_map]
  have h : c.entries.filter ((fun k => p (c.Count k)) ∘ Prod.fst) =
      c.entries.filter (fun e => p e.2) := by
    apply List.filter_congr
    intro e he
    simp only [Function.comp_apply]
    rw [c.Count_of_mem he]
  rw [h]
  exact (r.perm.filter _).length_eq.symm

theorem passTop_eq (c : Counter) (r : Range c) (min : Int) :
    c.passTop min = (r.items.filter (fun e => decide (e.2 ≥ min))).length :=
  c.length_filter_keys r (fun v => decide (v ≥ min))

theorem passBottom_eq (c : Counter) (r : Range c) (max : Int) :
    c.passBottom max = (r.items.filter (fun e => decide (max < 0 ∨ e.2 ≤ max))).length :=
  c.length_filter_keys r (fun v => decide (max < 0 ∨ v ≤ max))

/-- What a token returned by a selection is: a key of the counter whose entry
passes the filter. -/
theorem key_of_mem_selectTokens (c : Counter) (r : Range c) (keep : Entry → Bool)
    (less : Entry → Entry → Bool) {n : Int} {s : Bool} {t : Token}
    (h : t ∈ selectTokens keep less r.items n s) :
    t ∈ c.keys ∧ keep (t, c.Count t) = true := by
  obtain ⟨e, he, hk, het⟩ := mem_selectTokens keep less r.items h
  have hec : e ∈ c.entries := (r.mem_iff e).1 he
  subst het
  refine ⟨c.mem_keys_of_mem hec, ?_⟩
  rw [c.Count_of_mem hec]
  exact hk

/-- The counts of the tokens returned by a selection, in order. -/
theorem map_Count_selectTokens (c : Counter) (r : Range c) (keep : Entry → Bool)
    (less : Entry → Entry → Bool) {n : Int} (s : Bool) (hn : n ≠ 0) :
    (selectTokens keep less r.items n s).map c.Count =
      ((arranged keep less r.items s).take (cut n (arranged keep less r.items s).length)).map
        Prod.snd := by
  rw [selectTokens_eq keep less r.items n s hn]
  apply c.map_Count_of_subset
  intro e he
  exact (r.mem_iff e).1
    ((mem_arranged keep less r.items s e).1
      ((selected_sublist keep less r.items n s).subset he)).1

/-- A key that passes the filter and is left out of a sorted selection comes
behind every returned token in the order of `less`. -/
theorem Count_of_not_selected (c : Counter) (r : Range c) (keep : Entry → Bool)
    (less : Entry → Entry → Bool) (f : Int → Int)
    (hless : ∀ a b : Entry, less a b = true ↔ f a.2 < f b.2) {n : Int} (hn : n ≠ 0)
    {k : Token} (hk : k ∈ c.keys) (hkeep : keep (k, c.Count k) = true)
    (hout : k ∉ selectTokens keep less r.items n true) :
    ∀ t ∈ selectTokens keep less r.items n true, f (c.Count t) ≤ f (c.Count k) := by
  intro t ht
  have hke : (k, c.Count k) ∈ r.items := (r.mem_iff _).2 (c.mem_entries_of_mem_keys hk)
  have hle := le_of_not_selected keep less r.items (fun e : Entry => f e.2) hless hn hke hkeep hout
  rw [selectTokens_eq keep less r.items n true hn] at ht
  obtain ⟨e, he, het⟩ := List.mem_map.1 ht
  have hec : e ∈ c.entries := (r.mem_iff e).1
    ((mem_arranged keep less r.items true e).1
      ((selected_sublist keep less r.items n true).subset he)).1
  subst het
  rw [c.Count_of_mem hec]
  exact hle e he

theorem less_Top (a b : Entry) : decide (a.2 > b.2) = true ↔ (-a.2) < (-b.2) := by
  rw [decide_eq_true_iff]
  constructor <;> intro h <;> omega

theorem less_Bottom (a b : Entry) : decide (a.2 < b.2) = true ↔ a.2 < b.2 := by
  rw [decide_eq_true_iff]

end Counter

namespace Counter

theorem mem_keys_iff_get (c : Counter) (k : Token) : k ∈ c.keys ↔ c.get k ≠ none := by
  unfold get keys
  rw [Ne, lookupEntry_eq_none, not_not]

theorem mem_keys_incrementAll (ts : List Token) (k : Token) :
    k ∈ (incrementAll ts).keys ↔ k ∈ ts := by
  rw [mem_keys_iff_get, get_incrementAll]
  by_cases h : ts.count k = 0
  · simp only [h, if_true, ne_eq, not_true_eq_false, false_iff]
    exact List.count_eq_zero.1 h
  · simp only [h, if_false, ne_eq, reduceCtorEq, not_false_eq_true, true_iff]
    exact List.count_pos_iff.1 (Nat.pos_of_ne_zero h)

/-- Every count stored by a run of fewer than `2^63` increments is at least
one. -/
theorem one_le_of_mem_incrementAll (ts : List Token) (hts : ts.length < 9223372036854775808)
    {e : Entry} (he : e ∈ (incrementAll ts).entries) : 1 ≤ e.2 := by
  have h1 := (incrementAll ts).get_of_mem he
  rw [get_incrementAll] at h1
  have hle : ts.count e.1 ≤ ts.length := List.count_le_length _ _
  by_cases h0 : ts.count e.1 = 0
  · rw [if_pos h0] at h1
    exact absurd h1 (by simp)
  · rw [if_neg h0, wrapInt_of_lt (by omega) (by omega)] at h1
    have h2 : (ts.count e.1 : Int) = e.2 := Option.some.inj h1
    omega

end Counter

section Stability

theorem pair_sublist_map_fst {l : List Entry} (hnd : (l.map Prod.fst).Nodup) {ea eb : Entry}
    (ha : ea ∈ l) (hb : eb ∈ l) :
    List.Sublist [ea.1, eb.1] (l.map Prod.fst) ↔ List.Sublist [ea, eb] l := by
  constructor
  · intro h
    obtain ⟨l2, hl2, hmap⟩ := List.sublist_map_iff.1 h
    have hlen : l2.length = 2 := by
      have h2 := congrArg List.length hmap
      rw [List.length_map] at h2
      exact h2.symm
    obtain ⟨x, y, hxy⟩ := List.length_eq_two.1 hlen
    subst hxy
    simp only [List.map_cons, List.map_nil, List.cons.injEq, and_true] at hmap
    have hx : x = ea :=
      List.inj_on_of_nodup_map hnd (hl2.subset (List.mem_cons_self _ _)) ha hmap.1.symm
    have hy : y = eb :=
      List.inj_on_of_nodup_map hnd
        (hl2.subset (List.mem_cons_of_mem _ (List.mem_cons_self _ _))) hb hmap.2.symm
    rw [← hx, ← hy]
    exact hl2
  · intro h
    exact h.map Prod.fst

theorem sublist_left_of_append {α : Type} {l l1 l2 : List α} (h : List.Sublist l (l1 ++ l2))
    (hout : ∀ x ∈ l, x ∉ l2) : List.Sublist l l1 := by
  obtain ⟨a1, a2, hl, h1, h2⟩ := List.sublist_append_iff.1 h
  cases a2 with
  | nil =>
    rw [hl, List.append_nil]
    exact h1
  | cons x a2 =>
    have hx : x ∈ l := by
      rw [hl]
      exact List.mem_append_right _ (List.mem_cons_self _ _)
    exact absurd (h2.subset (List.mem_cons_self _ _)) (hout x hx)

theorem sublist_take_of_mem {α : Type} {l A : List α} (m : Nat) (hnd : A.Nodup)
    (h : List.Sublist l A) (hin : ∀ x ∈ l, x ∈ A.take m) : List.Sublist l (A.take m) := by
  rw [← List.take_append_drop m A] at h hnd
  apply sublist_left_of_append h
  intro x hx hdrop
  exact (List.disjoint_of_nodup_append hnd) (hin x hx) hdrop

variable (keep : Entry → Bool) (less : Entry → Entry → Bool) (its : List Entry)
variable {β : Type} [LinearOrder β] (f : Entry → β)

theorem nodup_keys_arranged (hnd : (its.map Prod.fst).Nodup) (s : Bool) :
    ((arranged keep less its s).map Prod.fst).Nodup :=
  (((perm_arranged keep less its s).map Prod.fst).nodup_iff).2
    (hnd.sublist ((List.filter_sublist its).map Prod.fst))

/-- Two passing entries of one key stand in a sorted arrangement in the order
in which the loop visited them. -/
theorem pair_sublist_arranged_iff (hless : ∀ a b, less a b = true ↔ f a < f b)
    {ea eb : Entry} (ha : keep ea = true) (hb : keep eb = true) (hf : f ea = f eb) :
    List.Sublist [ea, eb] (arranged keep less its true) ↔ List.Sublist [ea, eb] its := by
  have hfilter : (arranged keep less its true).filter (fun x => decide (f x = f ea)) =
      (its.filter keep).filter (fun x => decide (f x = f ea)) := by
    unfold arranged
    exact filter_SliceStable f less hless (f ea) _
  have hpair : ∀ p : Entry → Bool, p ea = true → p eb = true → [ea, eb].filter p = [ea, eb] := by
    intro p h1 h2
    simp [List.filter_cons, h1, h2]
  have hkey : [ea, eb].filter (fun x => decide (f x = f ea)) = [ea, eb] :=
    hpair _ (by simp) (by simp [hf])
  constructor
  · intro h
    have h1 := h.filter (fun x => decide (f x = f ea))
    rw [hkey, hfilter] at h1
    exact (h1.trans (List.filter_sublist _)).trans (List.filter_sublist _)
  · intro h
    have h1 := (h.filter keep).filter (fun x => decide (f x = f ea))
    rw [hpair keep ha hb, hkey, ← hfilter] at h1
    exact h1.trans (List.filter_sublist _)

/-- Stability of a sorted selection: two returned tokens of one key stand in the
result in the order in which the loop visited them. -/
theorem before_selectTokens_iff (hless : ∀ a b, less a b = true ↔ f a < f b)
    (hnd : (its.map Prod.fst).Nodup) {n : Int} (hn : n ≠ 0) {ea eb : Entry}
    (ha : ea ∈ (arranged keep less its true).take (cut n (arranged keep less its true).length))
    (hb : eb ∈ (arranged keep less its true).take (cut n (arranged keep less its true).length))
    (hf : f ea = f eb) :
    Before ea.1 eb.1 (selectTokens keep less its n true) ↔ Before ea.1 eb.1 (its.map Prod.fst) := by
  unfold Before
  have hsub := selected_sublist keep less its n true
  have haA := (mem_arranged keep less its true ea).1 (hsub.subset ha)
  have hbA := (mem_arranged keep less its true eb).1 (hsub.subset hb)
  have hndA := nodup_keys_arranged keep less its hnd true
  rw [selectTokens_eq keep less its n true hn,
    pair_sublist_map_fst (hndA.sublist (hsub.map Prod.fst)) ha hb,
    pair_sublist_map_fst hnd haA.1 hbA.1,
    ← pair_sublist_arranged_iff keep less its f hless haA.2 hbA.2 hf]
  constructor
  · intro h
    exact h.trans hsub
  · intro h
    apply sublist_take_of_mem _ (List.Nodup.of_map Prod.fst hndA) h
    intro x hx
    rcases List.mem_cons.1 hx with h1 | h1
    · rw [h1]; exact ha
    · rw [List.mem_singleton.1 h1]; exact hb

end Stability

namespace Counter

theorem entry_of_mem_selectTokens (c : Counter) (r : Range c) (keep : Entry → Bool)
    (less : Entry → Entry → Bool) {n : Int} {s : Bool} (hn : n ≠ 0) {t : Token}
    (h : t ∈ selectTokens keep less r.items n s) :
    (t, c.Count t) ∈ (arranged keep less r.items s).take
      (cut n (arranged keep less r.items s).length) := by
  rw [selectTokens_eq keep less r.items n s hn] at h
  obtain ⟨e, he, het⟩ := List.mem_map.1 h
  have hec : e ∈ c.entries := (r.mem_iff e).1
    ((mem_arranged keep less r.items s e).1
      ((selected_sublist keep less r.items n s).subset he)).1
  have : e = (t, c.Count t) := by
    rw [← het, c.Count_of_mem hec]
  rw [← this]
  exact he

end Counter

section RangeIndependence

variable {α β : Type} [LinearOrder β]

/-- Two arrangements of the same elements, both sorted by a key that separates
the elements, are the same list. -/
theorem eq_of_perm_of_pairwise_key (f : α → β) {l1 l2 : List α} (hp : l1.Perm l2)
    (h1 : l1.Pairwise (fun x y => f x ≤ f y)) (h2 : l2.Pairwise (fun x y => f x ≤ f y))
    (hnd : l1.Nodup) (hinj : ∀ x ∈ l1, ∀ y ∈ l1, f x = f y → x = y) : l1 = l2 := by
  have strict : ∀ l : List α, l.Perm l1 → l.Pairwise (fun x y => f x ≤ f y) →
      l.Pairwise (fun x y => f x < f y) := by
    intro l hl hs
    have hndl : l.Nodup := (hl.nodup_iff).2 hnd
    refine List.Pairwise.imp_of_mem ?_ (hs.and hndl)
    intro a b ha hb hab
    exact lt_of_le_of_ne hab.1
      (fun heq => hab.2 (hinj a (hl.mem_iff.1 ha) b (hl.mem_iff.1 hb) heq))
  have inst : IsAntisymm α (fun x y => f x < f y) :=
    ⟨fun a b hab hba => absurd hba (lt_asymm hab)⟩
  exact List.eq_of_perm_of_sorted hp (strict l1 (List.Perm.refl _) h1) (strict l2 hp.symm h2)

end RangeIndependence

namespace Counter

theorem nodup_entries (c : Counter) : c.entries.Nodup :=
  List.Nodup.of_map Prod.fst c.nodupKeys

/-- A sorted selection does not depend on the order of the loop when the key of
`less` separates the passing entries. -/
theorem selectTokens_sorted_range_eq {β : Type} [LinearOrder β] (c : Counter)
    (r1 r2 : Range c) (keep : Entry → Bool) (less : Entry → Entry → Bool) (f : Entry → β)
    (hless : ∀ a b, less a b = true ↔ f a < f b)
    (hinj : ∀ x ∈ c.entries, ∀ y ∈ c.entries, keep x = true → keep y = true →
      f x = f y → x = y) (n : Int) :
    selectTokens keep less r1.items n true = selectTokens keep less r2.items n true := by
  by_cases hn : n = 0
  · subst hn
    rw [selectTokens_zero, selectTokens_zero]
  · have hperm : (arranged keep less r1.items true).Perm (arranged keep less r2.items true) :=
      ((perm_arranged keep less r1.items true).trans
        ((r1.perm.trans r2.perm.symm).filter keep)).trans
        (perm_arranged keep less r2.items true).symm
    have hsorted : ∀ r : Range c,
        (arranged keep less r.items true).Pairwise (fun x y => f x ≤ f y) := by
      intro r
      unfold arranged
      exact pairwise_SliceStable f less hless _
    have hnd : (arranged keep less r1.items true).Nodup :=
      List.Nodup.of_map Prod.fst (nodup_keys_arranged keep less r1.items r1.nodup_keys true)
    have heq : arranged keep less r1.items true = arranged keep less r2.items true := by
      apply eq_of_perm_of_pairwise_key f hperm (hsorted r1) (hsorted r2) hnd
      intro x hx y hy hxy
      have hx2 := (mem_arranged keep less r1.items true x).1 hx
      have hy2 := (mem_arranged keep less r1.items true y).1 hy
      exact hinj x ((r1.mem_iff x).1 hx2.1) y ((r1.mem_iff y).1 hy2.1) hx2.2 hy2.2 hxy
    rw [selectTokens_eq keep less r1.items n true hn,
      selectTokens_eq keep less r2.items n true hn, heq]

/-- An untruncated selection returns the same tokens whatever the order of the
loop. -/
theorem selectTokens_neg_range_perm (c : Counter) (r1 r2 : Range c) (keep : Entry → Bool)
    (less : Entry → Entry → Bool) {n : Int} (hn : n < 0) (s : Bool) :
    (selectTokens keep less r1.items n s).Perm (selectTokens keep less r2.items n s) := by
  have hperm : (arranged keep less r1.items s).Perm (arranged keep less r2.items s) :=
    ((perm_arranged keep less r1.items s).trans
      ((r1.perm.trans r2.perm.symm).filter keep)).trans
      (perm_arranged keep less r2.items s).symm
  have hcut : ∀ r : Range c, cut n (arranged keep less r.items s).length =
      (arranged keep less r.items s).length := by
    intro r
    unfold cut
    rw [if_neg (by omega)]
  rw [selectTokens_eq keep less r1.items n s (by omega),
    selectTokens_eq keep less r2.items n s (by omega), hcut r1, hcut r2,
    List.take_length, List.take_length]
  exact hperm.map Prod.fst

theorem entry_ext_of_Count (c : Counter) {x y : Entry} (hx : x ∈ c.entries)
    (hy : y ∈ c.entries) (h : x.1 = y.1) : x = y := by
  have h1 := c.Count_of_mem hx
  have h2 := c.Count_of_mem hy
  rw [h] at h1
  exact Prod.ext h (h1.symm.trans h2)

end Counter

/-- The assertions of `TestCounter` hold on the model. -/
theorem test_TestCounter :
    Counter.New.Has foo = false ∧
      (Counter.incrementAll [foo]).Has foo = true ∧
      (Counter.incrementAll [foo]).Count foo = 1 ∧
      (Counter.incrementAll [foo, foo]).Count foo = 2 ∧
      (Counter.incrementAll [foo, foo, bar]).Has bar = true ∧
      (Counter.incrementAll [foo, foo, bar]).Count bar = 1 ∧
      (Counter.incrementAll [foo, foo, bar]).Len = 2 := by
  decide

/-- The assertions of `TestAll`, `TestTop` and `TestBottom` hold on the model,
whichever of the two entries the loop visits first. -/
theorem test_TestAll_TestTop_TestBottom :
    ∀ r ∈ [Counter.Range.id fooBar, fooBarReverse],
      fooBar.All r true = [bar, foo] ∧
        fooBar.Top r 1 6 false = [foo] ∧
        fooBar.Top r 1 0 true = [foo] ∧
        fooBar.Top r 2 0 true = [foo, bar] ∧
        fooBar.Top r 3 0 true = [foo, bar] ∧
        fooBar.Bottom r 1 6 false = [bar] ∧
        fooBar.Bottom r 1 (-1) true = [bar] ∧
        fooBar.Bottom r 2 (-1) true = [bar, foo] ∧
        fooBar.Bottom r 3 (-1) true = [bar, foo] := by
  intro r hr
  simp only [List.mem_cons, List.mem_singleton, List.not_mem_nil, or_false] at hr
  rcases hr with h | h <;> subst h <;> decide

/-- C1. For every sequence of tokens `ts` and token `t`, the counter built
from `New()` by `Increment` on each element of `ts` has `Count(t)` equal to the
number of occurrences of `t` in `ts` (that number being below `2^63`, the range
of `int`), and `Has(t)` holds exactly when `t` occurs at least once. -/
theorem C1_count_has_incrementAll (ts : List Token) (t : Token)
    (h : ts.count t < 9223372036854775808) :
    (Counter.incrementAll ts).Count t = (ts.count t : Int) ∧
      ((Counter.incrementAll ts).Has t = true ↔ 1 ≤ ts.count t) := by
  have hg := Counter.get_incrementAll ts t
  unfold Counter.Count Counter.Has
  rw [hg]
  by_cases h0 : ts.count t = 0
  · simp [h0]
  · simp only [h0, if_false]
    refine ⟨Counter.wrapInt_of_lt (by omega) (by omega), ?_⟩
    exact ⟨fun _ => by omega, fun _ => trivial⟩

theorem C1_count_has_incrementAll_witness :
    List.count foo [foo, bar, foo] < 9223372036854775808 ∧
      (Counter.incrementAll [foo, bar, foo]).Count foo = 2 ∧
      ((Counter.incrementAll [foo, bar, foo]).Has foo = true ↔ 1 ≤ List.count foo [foo, bar, foo]) :=
  ⟨by decide, C1_count_has_incrementAll [foo, bar, foo] foo (by decide)⟩

/-- C2. For a non-zero `n`, the tokens of `Top(n, min, true)` have
non-increasing counts along the list, and every key with count at least `min`
that is left out has a count no greater than that of every returned token.  In
particular, on a counter that holds a token of non-negative count (every
non-empty counter whose counts are at least one), `Top(1, 0, true)` returns one
token, and its count is maximal. -/
theorem C2_Top_sorted_is_true_top (c : Counter) (r : c.Range) (n min : Int) (hn : n ≠ 0) :
    ((c.Top r n min true).map c.Count).Pairwise (fun x y => x ≥ y) ∧
      (∀ k ∈ c.keys, c.Count k ≥ min → k ∉ c.Top r n min true →
        ∀ t ∈ c.Top r n min true, c.Count k ≤ c.Count t) ∧
      (∀ k ∈ c.keys, c.Count k ≥ 0 →
        ∃ t, c.Top r 1 0 true = [t] ∧ t ∈ c.keys ∧ ∀ k2 ∈ c.keys, c.Count k2 ≤ c.Count t) := by
  have part2 : ∀ (m lo : Int), m ≠ 0 → ∀ k ∈ c.keys, c.Count k ≥ lo →
      k ∉ c.Top r m lo true → ∀ t ∈ c.Top r m lo true, c.Count k ≤ c.Count t := by
    intro m lo hm k hk hge hout t ht
    rw [Counter.Top_eq_selectTokens] at hout ht
    have h := c.Count_of_not_selected r _ _ (fun v => -v) Counter.less_Top hm hk
      (by simpa using hge) hout t ht
    simp only at h
    omega
  refine ⟨?_, part2 n min hn, ?_⟩
  · rw [Counter.Top_eq_selectTokens, c.map_Count_selectTokens r _ _ true hn, List.pairwise_map]
    refine (pairwise_selected _ _ r.items (fun e : Entry => -e.2) Counter.less_Top n).imp ?_
    intro a b hab
    simp only at hab
    omega
  · intro k hk hk0
    have hlen : (c.Top r 1 0 true).length = 1 := by
      rw [Counter.Top_eq_selectTokens, length_selectTokens _ _ _ (by decide)]
      have hmem : (k, c.Count k) ∈ r.items.filter (fun e => decide (e.2 ≥ 0)) :=
        List.mem_filter.2 ⟨(r.mem_iff _).2 (c.mem_entries_of_mem_keys hk), by simpa using hk0⟩
      have hpos := List.length_pos_of_mem hmem
      simp only [cut]
      simp only [Int.toNat_one, zero_lt_one, if_true]
      omega
    obtain ⟨t, ht⟩ := List.length_eq_one.1 hlen
    have htmem : t ∈ c.Top r 1 0 true := by rw [ht]; exact List.mem_singleton.2 rfl
    have htkey := c.key_of_mem_selectTokens r _ _ htmem
    refine ⟨t, ht, htkey.1, ?_⟩
    intro k2 hk2
    have ht0 : c.Count t ≥ 0 := by simpa using htkey.2
    by_cases h0 : c.Count k2 ≥ 0
    · by_cases hin : k2 ∈ c.Top r 1 0 true
      · rw [ht, List.mem_singleton] at hin
        rw [hin]
      · exact part2 1 0 (by decide) k2 hk2 h0 hin t htmem
    · omega

theorem C2_Top_sorted_is_true_top_witness :
    ((fooBar.Top (Counter.Range.id fooBar) 1 0 true).map fooBar.Count).Pairwise
        (fun x y => x ≥ y) ∧
      (∀ k ∈ fooBar.keys, fooBar.Count k ≥ 0 →
        k ∉ fooBar.Top (Counter.Range.id fooBar) 1 0 true →
        ∀ t ∈ fooBar.Top (Counter.Range.id fooBar) 1 0 true, fooBar.Count k ≤ fooBar.Count t) ∧
      (∀ k ∈ fooBar.keys, fooBar.Count k ≥ 0 →
        ∃ t, fooBar.Top (Counter.Range.id fooBar) 1 0 true = [t] ∧ t ∈ fooBar.keys ∧
          ∀ k2 ∈ fooBar.keys, fooBar.Count k2 ≤ fooBar.Count t) :=
  C2_Top_sorted_is_true_top fooBar (Counter.Range.id fooBar) 1 0 (by decide)

/-- C3. Every string in `Top(n, min, s)` is a key of the counter whose count is
at least `min`, and no string occurs twice in the result. -/
theorem C3_Top_keys_above_min_nodup (c : Counter) (r : c.Range) (n min : Int) (s : Bool) :
    (∀ t ∈ c.Top r n min s, t ∈ c.keys ∧ c.Count t ≥ min) ∧ (c.Top r n min s).Nodup := by
  constructor
  · intro t ht
    have h := c.key_of_mem_selectTokens r _ _ ht
    exact ⟨h.1, by simpa using h.2⟩
  · exact nodup_selectTokens _ _ r.items r.nodup_keys n s

theorem C3_Top_keys_above_min_nodup_witness :
    foo ∈ fooBar.keys ∧ fooBar.Count foo ≥ 6 :=
  (C3_Top_keys_above_min_nodup fooBar (Counter.Range.id fooBar) 1 6 false).1 foo (by decide)

/-- C4. `Top(0, min, s)` is empty; for `n > 0`, `Top(n, min, s)` is the first
`n` entries of `Top(-1, min, s)` and its length is the smaller of `n` and the
number of keys with count at least `min`; for `n < 0`, and for `n` at least
that number, the result contains every key with count at least `min`. -/
theorem C4_Top_truncation (c : Counter) (r : c.Range) (min : Int) (s : Bool) :
    c.Top r 0 min s = [] ∧
      (∀ n : Int, 0 < n →
        c.Top r n min s = (c.Top r (-1) min s).take n.toNat ∧
          ((c.Top r n min s).length : Int) = Min.min n (c.passTop min : Int)) ∧
      (∀ n : Int, n < 0 ∨ (c.passTop min : Int) ≤ n →
        ∀ k ∈ c.keys, c.Count k ≥ min → k ∈ c.Top r n min s) := by
  refine ⟨selectTokens_zero _ _ _ _, ?_, ?_⟩
  · intro n hn
    refine ⟨selectTokens_pos_eq_take _ _ r.items hn s, ?_⟩
    rw [Counter.Top_eq_selectTokens, length_selectTokens _ _ _ (by omega), c.passTop_eq r]
    simp only [cut, hn, if_true]
    omega
  · intro n hn k hk hge
    rw [c.passTop_eq r] at hn
    have h := mem_selectTokens_of_all (fun e : Entry => decide (e.2 ≥ min))
      (fun a b : Entry => decide (a.2 > b.2)) r.items s hn
      ((r.mem_iff _).2 (c.mem_entries_of_mem_keys hk)) (by simpa using hge)
    exact h

theorem C4_Top_truncation_witness :
    fooBar.Top (Counter.Range.id fooBar) 1 0 true =
        (fooBar.Top (Counter.Range.id fooBar) (-1) 0 true).take (1 : Int).toNat ∧
      ((fooBar.Top (Counter.Range.id fooBar) 1 0 true).length : Int) =
        Min.min 1 (fooBar.passTop 0 : Int) :=
  (C4_Top_truncation fooBar (Counter.Range.id fooBar) 0 true).2.1 1 (by decide)

/-- C5. On a counter built from `New()` by `Increment` calls (fewer than `2^63`
of them, the range of `int`): with `max >= 0` every token of
`Bottom(n, max, s)` is a key with count at most `max`; with `max < 0` the
threshold is off and `Bottom(-1, max, s)` contains every key; and
`Bottom(n, 0, s)` is empty. -/
theorem C5_Bottom_threshold (ts : List Token) (hts : ts.length < 9223372036854775808)
    (r : (Counter.incrementAll ts).Range) (n max : Int) (s : Bool) :
    (max ≥ 0 → ∀ t ∈ (Counter.incrementAll ts).Bottom r n max s,
        t ∈ (Counter.incrementAll ts).keys ∧ (Counter.incrementAll ts).Count t ≤ max) ∧
      (max < 0 → ∀ k ∈ (Counter.incrementAll ts).keys,
        k ∈ (Counter.incrementAll ts).Bottom r (-1) max s) ∧
      (Counter.incrementAll ts).Bottom r n 0 s = [] := by
  refine ⟨?_, ?_, ?_⟩
  · intro hmax t ht
    have h := (Counter.incrementAll ts).key_of_mem_selectTokens r _ _ ht
    refine ⟨h.1, ?_⟩
    have h2 := h.2
    simp only [decide_eq_true_eq] at h2
    omega
  · intro hmax k hk
    exact mem_selectTokens_of_all (fun e : Entry => decide (max < 0 ∨ e.2 ≤ max))
      (fun a b : Entry => decide (a.2 < b.2)) r.items s (Or.inl (by decide))
      ((r.mem_iff _).2 ((Counter.incrementAll ts).mem_entries_of_mem_keys hk))
      (by simp only [decide_eq_true_eq]; exact Or.inl hmax)
  · rw [List.eq_nil_iff_forall_not_mem]
    intro t ht
    have h := (Counter.incrementAll ts).key_of_mem_selectTokens r _ _ ht
    have h1 := Counter.one_le_of_mem_incrementAll ts hts
      ((Counter.incrementAll ts).mem_entries_of_mem_keys h.1)
    have h2 := h.2
    simp only [decide_eq_true_eq] at h2
    simp only at h1
    omega

theorem C5_Bottom_threshold_witness :
    (((6 : Int) ≥ 0 → ∀ t ∈ fooBar.Bottom (Counter.Range.id fooBar) 1 6 false,
        t ∈ fooBar.keys ∧ fooBar.Count t ≤ 6) ∧
      ((6 : Int) < 0 → ∀ k ∈ fooBar.keys, k ∈ fooBar.Bottom (Counter.Range.id fooBar) (-1) 6 false) ∧
      fooBar.Bottom (Counter.Range.id fooBar) 1 0 false = []) :=
  C5_Bottom_threshold (List.replicate 10 foo ++ List.replicate 5 bar) (by decide)
    (Counter.Range.id fooBar) 1 6 false

/-- C6. `Bottom(0, max, s)` is empty for both values of `s`; for a non-zero `n`,
`Bottom(n, max, true)` has non-decreasing counts along the list, its length is
the smaller of `n` and the number of keys passing the threshold when `n > 0` and
that number when `n < 0`, and every passing key that is left out has a count no
smaller than that of every returned token. -/
theorem C6_Bottom_sorted_is_true_bottom (c : Counter) (r : c.Range) (max : Int) :
    (∀ s : Bool, c.Bottom r 0 max s = []) ∧
      (∀ n : Int, n ≠ 0 →
        ((c.Bottom r n max true).map c.Count).Pairwise (fun x y => x ≤ y) ∧
          (0 < n → ((c.Bottom r n max true).length : Int) = Min.min n (c.passBottom max : Int)) ∧
          (n < 0 → (c.Bottom r n max true).length = c.passBottom max) ∧
          (∀ k ∈ c.keys, (max < 0 ∨ c.Count k ≤ max) → k ∉ c.Bottom r n max true →
            ∀ t ∈ c.Bottom r n max true, c.Count t ≤ c.Count k)) := by
  refine ⟨fun s => selectTokens_zero _ _ _ _, ?_⟩
  intro n hn
  refine ⟨?_, ?_, ?_, ?_⟩
  · rw [Counter.Bottom_eq_selectTokens, c.map_Count_selectTokens r _ _ true hn,
      List.pairwise_map]
    exact pairwise_selected _ _ r.items (fun e : Entry => e.2) Counter.less_Bottom n
  · intro hpos
    rw [Counter.Bottom_eq_selectTokens, length_selectTokens _ _ _ hn, c.passBottom_eq r]
    simp only [cut, hpos, if_true]
    omega
  · intro hneg
    rw [Counter.Bottom_eq_selectTokens, length_selectTokens _ _ _ hn, c.passBottom_eq r]
    have h0 : ¬ (0 < n) := by omega
    simp only [cut, h0, if_false]
    omega
  · intro k hk hpass hout t ht
    rw [Counter.Bottom_eq_selectTokens] at hout ht
    exact c.Count_of_not_selected r _ _ (fun v => v) Counter.less_Bottom hn hk
      (by simpa using hpass) hout t ht

theorem C6_Bottom_sorted_is_true_bottom_witness :
    ((fooBar.Bottom (Counter.Range.id fooBar) 1 (-1) true).map fooBar.Count).Pairwise
        (fun x y => x ≤ y) ∧
      ((0 : Int) < 1 → ((fooBar.Bottom (Counter.Range.id fooBar) 1 (-1) true).length : Int) =
        Min.min 1 (fooBar.passBottom (-1) : Int)) ∧
      ((1 : Int) < 0 → (fooBar.Bottom (Counter.Range.id fooBar) 1 (-1) true).length =
        fooBar.passBottom (-1)) ∧
      (∀ k ∈ fooBar.keys, ((-1 : Int) < 0 ∨ fooBar.Count k ≤ -1) →
        k ∉ fooBar.Bottom (Counter.Range.id fooBar) 1 (-1) true →
        ∀ t ∈ fooBar.Bottom (Counter.Range.id fooBar) 1 (-1) true,
          fooBar.Count t ≤ fooBar.Count k) :=
  (C6_Bottom_sorted_is_true_bottom fooBar (Counter.Range.id fooBar) (-1)).2 1 (by decide)

/-- C7. For both values of `s`, `All(s)` has no duplicates, its elements are
exactly the keys of the counter and its length is `Len()`; `All(true)` is in
strictly ascending byte-wise lexicographic order. -/
theorem C7_All_keys_sorted (c : Counter) (r : c.Range) :
    (∀ s : Bool, (c.All r s).Nodup ∧ (∀ k : Token, k ∈ c.All r s ↔ k ∈ c.keys) ∧
        ((c.All r s).length : Int) = c.Len) ∧
      (c.All r true).Pairwise (fun a b => a < b) := by
  have hperm : ∀ s : Bool, (c.All r s).Perm c.keys := by
    intro s
    unfold Counter.All Counter.keys
    cases s with
    | true => exact (perm_SliceStable _ _).trans (r.perm.map Prod.fst)
    | false => exact r.perm.map Prod.fst
  have hnodup : ∀ s : Bool, (c.All r s).Nodup := fun s => ((hperm s).nodup_iff).2 c.nodupKeys
  refine ⟨fun s => ⟨hnodup s, fun k => (hperm s).mem_iff, ?_⟩, ?_⟩
  · rw [(hperm s).length_eq]
    unfold Counter.keys Counter.Len
    rw [List.length_map]
  · have hle : (c.All r true).Pairwise (fun a b => a ≤ b) := by
      unfold Counter.All
      exact pairwise_SliceStable (fun t : Token => t) _
        (fun a b => by rw [decide_eq_true_iff]) _
    exact (hle.and (hnodup true)).imp (fun h => lt_of_le_of_ne h.1 h.2)

/-- C8. The counter built from `New()` by `Increment` on each element of `ts`
has `Len()` equal to the number of distinct tokens of `ts`, and `New()` has
`Len()` zero. -/
theorem C8_Len_distinct (ts : List Token) :
    (Counter.incrementAll ts).Len = (ts.dedup.length : Int) ∧ Counter.New.Len = 0 := by
  refine ⟨?_, rfl⟩
  have hperm : (Counter.incrementAll ts).keys.Perm ts.dedup :=
    (List.perm_ext_iff_of_nodup (Counter.incrementAll ts).nodupKeys (List.nodup_dedup ts)).2
      (fun k => (Counter.mem_keys_incrementAll ts k).trans List.mem_dedup.symm)
  unfold Counter.Len
  rw [← hperm.length_eq]
  unfold Counter.keys
  rw [List.length_map]

/-- C9. For a non-zero `n`, two tokens of equal count that both appear in
`Top(n, min, true)` stand there in the same relative order as in the iteration
order of the loop, the order in which `All(false)` lists them; likewise for
`Bottom(n, max, true)`. -/
theorem C9_ties_keep_iteration_order (c : Counter) (r : c.Range) (n : Int) (hn : n ≠ 0)
    (a b : Token) (hcount : c.Count a = c.Count b) :
    (∀ min : Int, a ∈ c.Top r n min true → b ∈ c.Top r n min true →
        (Before a b (c.Top r n min true) ↔ Before a b (c.All r false))) ∧
      (∀ max : Int, a ∈ c.Bottom r n max true → b ∈ c.Bottom r n max true →
        (Before a b (c.Bottom r n max true) ↔ Before a b (c.All r false))) := by
  constructor
  · intro min ha hb
    exact before_selectTokens_iff _ _ r.items (fun e : Entry => -e.2) Counter.less_Top
      r.nodup_keys hn (c.entry_of_mem_selectTokens r _ _ hn ha)
      (c.entry_of_mem_selectTokens r _ _ hn hb) (by simp only; rw [hcount])
  · intro max ha hb
    exact before_selectTokens_iff _ _ r.items (fun e : Entry => e.2) Counter.less_Bottom
      r.nodup_keys hn (c.entry_of_mem_selectTokens r _ _ hn ha)
      (c.entry_of_mem_selectTokens r _ _ hn hb) hcount

theorem C9_ties_keep_iteration_order_witness :
    (2 : Int) ≠ 0 ∧ tie.Count foo = tie.Count bar ∧
      (∀ min : Int, foo ∈ tie.Top tieReverse 2 min true → bar ∈ tie.Top tieReverse 2 min true →
        (Before foo bar (tie.Top tieReverse 2 min true) ↔
          Before foo bar (tie.All tieReverse false))) ∧
      (∀ max : Int, foo ∈ tie.Bottom tieReverse 2 max true →
        bar ∈ tie.Bottom tieReverse 2 max true →
        (Before foo bar (tie.Bottom tieReverse 2 max true) ↔
          Before foo bar (tie.All tieReverse false))) :=
  ⟨by decide, by decide,
    C9_ties_keep_iteration_order tie tieReverse 2 (by decide) foo bar (by decide)⟩

/-- C10, as stated, fails: on the counter holding `foo` and `bar` once each, two
loops that visit the entries in opposite orders give different results for
`All(false)`, for `Top` and `Bottom` without sorting, and for `Top` and `Bottom`
with sorting, the two counts being equal. -/
theorem C10_repeat_calls_counterexample :
    tie.All (Counter.Range.id tie) false ≠ tie.All tieReverse false ∧
      tie.Top (Counter.Range.id tie) 1 0 false ≠ tie.Top tieReverse 1 0 false ∧
      tie.Top (Counter.Range.id tie) 1 0 true ≠ tie.Top tieReverse 1 0 true ∧
      tie.Bottom (Counter.Range.id tie) 1 (-1) false ≠ tie.Bottom tieReverse 1 (-1) false ∧
      tie.Bottom (Counter.Range.id tie) 1 (-1) true ≠ tie.Bottom tieReverse 1 (-1) true := by
  decide

/-- C10, amended. Whatever the orders `r1` and `r2` in which two calls visit
the map: `All(true)` returns the same sequence; `Top(n, min, true)` and
`Bottom(n, max, true)` return the same sequence when no two keys that pass the
threshold have equal counts; and `All(s)`, and `Top` and `Bottom` with a
negative `n`, return the same tokens up to their order. -/
theorem C10_repeat_calls_amended (c : Counter) (r1 r2 : c.Range) :
    c.All r1 true = c.All r2 true ∧
      (∀ n min : Int,
        (∀ a ∈ c.keys, ∀ b ∈ c.keys, c.Count a ≥ min → c.Count b ≥ min →
          c.Count a = c.Count b → a = b) →
        c.Top r1 n min true = c.Top r2 n min true) ∧
      (∀ n max : Int,
        (∀ a ∈ c.keys, ∀ b ∈ c.keys, (max < 0 ∨ c.Count a ≤ max) → (max < 0 ∨ c.Count b ≤ max) →
          c.Count a = c.Count b → a = b) →
        c.Bottom r1 n max true = c.Bottom r2 n max true) ∧
      (∀ s : Bool, (c.All r1 s).Perm (c.All r2 s)) ∧
      (∀ (n m : Int) (s : Bool), n < 0 →
        (c.Top r1 n m s).Perm (c.Top r2 n m s) ∧ (c.Bottom r1 n m s).Perm (c.Bottom r2 n m s)) := by
  have hall : ∀ (r : c.Range) (s : Bool), (c.All r s).Perm c.keys := by
    intro r s
    unfold Counter.All Counter.keys
    cases s with
    | true => exact (perm_SliceStable _ _).trans (r.perm.map Prod.fst)
    | false => exact r.perm.map Prod.fst
  have hsorted : ∀ r : c.Range, (c.All r true).Pairwise (fun a b => a ≤ b) := by
    intro r
    unfold Counter.All
    exact pairwise_SliceStable (fun t : Token => t) _
      (fun a b => by rw [decide_eq_true_iff]) _
  refine ⟨?_, ?_, ?_, ?_, ?_⟩
  · exact eq_of_perm_of_pairwise_key (fun t : Token => t)
      ((hall r1 true).trans (hall r2 true).symm) (hsorted r1) (hsorted r2)
      (((hall r1 true).nodup_iff).2 c.nodupKeys) (fun x _ y _ h => h)
  · intro n min hdist
    apply c.selectTokens_sorted_range_eq r1 r2 _ _ (fun e : Entry => -e.2) Counter.less_Top
    intro x hx y hy hkx hky hxy
    have hcx := c.Count_of_mem hx
    have hcy := c.Count_of_mem hy
    simp only [decide_eq_true_eq] at hkx hky
    simp only [neg_inj] at hxy
    exact c.entry_ext_of_Count hx hy
      (hdist x.1 (c.mem_keys_of_mem hx) y.1 (c.mem_keys_of_mem hy)
        (by rw [hcx]; exact hkx) (by rw [hcy]; exact hky) (by rw [hcx, hcy]; exact hxy))
  · intro n max hdist
    apply c.selectTokens_sorted_range_eq r1 r2 _ _ (fun e : Entry => e.2) Counter.less_Bottom
    intro x hx y hy hkx hky hxy
    have hcx := c.Count_of_mem hx
    have hcy := c.Count_of_mem hy
    simp only [decide_eq_true_eq] at hkx hky
    have hxy2 : x.2 = y.2 := hxy
    exact c.entry_ext_of_Count hx hy
      (hdist x.1 (c.mem_keys_of_mem hx) y.1 (c.mem_keys_of_mem hy)
        (by rw [hcx]; exact hkx) (by rw [hcy]; exact hky) (by rw [hcx, hcy]; exact hxy2))
  · intro s
    exact (hall r1 s).trans (hall r2 s).symm
  · intro n m s hn
    exact ⟨c.selectTokens_neg_range_perm r1 r2 _ _ hn s,
      c.selectTokens_neg_range_perm r1 r2 _ _ hn s⟩

theorem C10_repeat_calls_amended_witness :
    fooBar.All (Counter.Range.id fooBar) true = fooBar.All fooBarReverse true ∧
      fooBar.Top (Counter.Range.id fooBar) 1 0 true = fooBar.Top fooBarReverse 1 0 true ∧
      fooBar.Bottom (Counter.Range.id fooBar) 1 (-1) true =
        fooBar.Bottom fooBarReverse 1 (-1) true :=
  ⟨(C10_repeat_calls_amended fooBar (Counter.Range.id fooBar) fooBarReverse).1,
    (C10_repeat_calls_amended fooBar (Counter.Range.id fooBar) fooBarReverse).2.1 1 0
      (by decide),
    (C10_repeat_calls_amended fooBar (Counter.Range.id fooBar) fooBarReverse).2.2.1 1 (-1)
      (by decide)⟩

theorem foldl_apply_eq (calls : List Call) (c : Counter) :
    calls.foldl Call.apply c = (incremented calls).foldl Counter.Increment c := by
  induction calls generalizing c with
  | nil => rfl
  | cons call calls ih =>
    cases call <;> simp only [List.foldl_cons, Call.apply, incremented, ih]

theorem runCalls_eq (calls : List Call) :
    runCalls calls = Counter.incrementAll (incremented calls) :=
  foldl_apply_eq calls Counter.New

theorem length_incremented (calls : List Call) : (incremented calls).length ≤ calls.length := by
  induction calls with
  | nil => exact Nat.le_refl _
  | cons call calls ih =>
    cases call <;> simp only [incremented, List.length_cons] <;> omega

theorem Count_eq_zero_of_not_Has (c : Counter) (t : Token) (h : c.Has t = false) :
    c.Count t = 0 := by
  unfold Counter.Has at h
  unfold Counter.Count
  cases hg : c.get t with
  | none => rfl
  | some v => rw [hg] at h; exact absurd h (by simp)

/-- C11. Every counter reached from `New()` by a sequence of `Increment`,
`Count`, `Has`, `Len`, `All`, `Top` and `Bottom` calls (fewer than `2^63` of
them, the range of `int`) stores a count of at least one for each key, so no
entry holds zero; and `Count` and `Has` on an absent token return zero and
false and leave the key set and `Len()` unchanged. -/
theorem C11_counts_at_least_one (calls : List Call)
    (h : calls.length < 9223372036854775808) :
    (∀ e ∈ (runCalls calls).entries, 1 ≤ e.2) ∧
      (∀ k ∈ (runCalls calls).keys, 1 ≤ (runCalls calls).Count k) ∧
      (∀ (c : Counter) (t : Token), c.Has t = false →
        c.Count t = 0 ∧
          (Call.apply c (Call.Count t)).keys = c.keys ∧
          (Call.apply c (Call.Count t)).Len = c.Len ∧
          (Call.apply c (Call.Has t)).keys = c.keys ∧
          (Call.apply c (Call.Has t)).Len = c.Len ∧
          t ∉ (Call.apply c (Call.Count t)).keys ∧
          t ∉ (Call.apply c (Call.Has t)).keys) := by
  have hlen : (incremented calls).length < 9223372036854775808 :=
    Nat.lt_of_le_of_lt (length_incremented calls) h
  have hone : ∀ e ∈ (runCalls calls).entries, 1 ≤ e.2 := by
    intro e he
    rw [runCalls_eq] at he
    exact Counter.one_le_of_mem_incrementAll _ hlen he
  refine ⟨hone, ?_, ?_⟩
  · intro k hk
    exact hone _ ((runCalls calls).mem_entries_of_mem_keys hk)
  · intro c t ht
    have habsent : t ∉ c.keys := by
      intro hk
      have hg := (c.mem_keys_iff_get t).1 hk
      unfold Counter.Has at ht
      cases hgt : c.get t with
      | none => exact hg hgt
      | some v => rw [hgt] at ht; exact absurd ht (by simp)
    exact ⟨Count_eq_zero_of_not_Has c t ht, rfl, rfl, rfl, rfl, habsent, habsent⟩

theorem C11_counts_at_least_one_witness :
    (∀ e ∈ (runCalls [Call.Increment foo, Call.Count bar, Call.Has bar, Call.Len,
        Call.Increment foo]).entries, 1 ≤ e.2) ∧
      (runCalls [Call.Increment foo, Call.Count bar, Call.Has bar, Call.Len,
        Call.Increment foo]).keys = [foo] :=
  ⟨(C11_counts_at_least_one [Call.Increment foo, Call.Count bar, Call.Has bar, Call.Len,
      Call.Increment foo] (by decide)).1, by decide⟩

theorem checkDumpConfig_isSome (v : Viper) : (checkDumpConfig v).isSome ↔ v.selected ≠ 1 := by
  unfold checkDumpConfig Viper.selected
  cases v.bytes <;> cases v.words <;> cases v.lines <;> simp

theorem checkAllConfig_isSome (v : Viper) : (checkAllConfig v).isSome ↔ v.selected ≠ 1 := by
  unfold checkAllConfig Viper.selected
  cases v.bytes <;> cases v.words <;> cases v.lines <;> simp

/-- C15, on the code. The `dump` and `all` commands reject exactly the
configurations whose number of selected splitting modes is not one; the `top`
and `bottom` commands do not look at the splitting modes: `top` with none
selected and `bottom` with two selected both pass their check and go on to
tokenizing. -/
theorem C15_top_bottom_skip_split_check :
    (∀ v : Viper, (Command.dump.check v).isSome ↔ v.selected ≠ 1) ∧
      (∀ v : Viper, (Command.all.check v).isSome ↔ v.selected ≠ 1) ∧
      topNoSplit.selected = 0 ∧ Command.top.check topNoSplit = none ∧
      Command.top.start 1 topNoSplit = Progress.tokenizing ∧
      bottomTwoSplits.selected = 2 ∧ Command.bottom.check bottomTwoSplits = none ∧
      Command.bottom.start 1 bottomTwoSplits = Progress.tokenizing := by
  refine ⟨checkDumpConfig_isSome, checkAllConfig_isSome, ?_, ?_, ?_, ?_, ?_, ?_⟩ <;> decide

/-- C16. `checkBottomConfig` returns an error exactly when `number <= 0` or
`maximum = 0`; `checkTopConfig` returns an error whenever `number <= 0` and
returns none whenever `number > 0` and `minimum >= 0`. -/
theorem C16_check_number_bounds (v : Viper) :
    ((checkBottomConfig v).isSome ↔ (v.number ≤ 0 ∨ v.maximum = 0)) ∧
      (v.number ≤ 0 → (checkTopConfig v).isSome) ∧
      (v.number > 0 → v.minimum ≥ 0 → checkTopConfig v = none) := by
  refine ⟨?_, ?_, ?_⟩
  · unfold checkBottomConfig
    by_cases h1 : v.number ≤ 0
    · simp [h1]
    · by_cases h2 : v.maximum = 0
      · simp [h1, h2]
      · simp [h1, h2]
  · intro h1
    unfold checkTopConfig
    simp [h1]
  · intro h1 h2
    unfold checkTopConfig
    have h3 : ¬ v.number ≤ 0 := by omega
    have h4 : ¬ v.minimum < 0 := by omega
    simp [h3, h4]

theorem C16_check_number_bounds_witness :
    ((checkBottomConfig topMinSix).isSome ↔ (topMinSix.number ≤ 0 ∨ topMinSix.maximum = 0)) ∧
      (topMinSix.number > 0 ∧ topMinSix.minimum ≥ 0 ∧ checkTopConfig topMinSix = none) :=
  ⟨(C16_check_number_bounds topMinSix).1, by decide, by decide,
    (C16_check_number_bounds topMinSix).2.2 (by decide) (by decide)⟩

/-- C18, on the code. The `top` command passes the value of the key `maximum`,
not the value of the minimum flag, as the `min` argument of `Top`: with
`-n 2 -m 6 -s` on the counter holding `foo` ten times and `bar` five times the
configuration is accepted and the command returns `foo` and `bar`, although
`bar` was counted fewer than six times; `Top(2, 6, true)` returns `foo` alone. -/
theorem C18_top_command_ignores_minimum :
    checkTopConfig topMinSix = none ∧
      topMinSix.minimum = 6 ∧
      topValues topMinSix fooBar (Counter.Range.id fooBar) = [foo, bar] ∧
      fooBar.Count bar = 5 ∧
      fooBar.Top (Counter.Range.id fooBar) topMinSix.number topMinSix.minimum topMinSix.sort =
        [foo] := by
  decide

section CountsIndependence

variable {α β : Type} [LinearOrder β]

/-- Two arrangements of the same elements, both sorted by a key, list the same
keys in the same order. -/
theorem map_eq_of_perm_of_pairwise_key (f : α → β) {l1 l2 : List α} (hp : l1.Perm l2)
    (h1 : l1.Pairwise (fun x y => f x ≤ f y)) (h2 : l2.Pairwise (fun x y => f x ≤ f y)) :
    l1.map f = l2.map f :=
  List.eq_of_perm_of_sorted (hp.map f) (List.pairwise_map.2 h1) (List.pairwise_map.2 h2)

end CountsIndependence

namespace Counter

theorem perm_All_keys (c : Counter) (r : Range c) (s : Bool) : (c.All r s).Perm c.keys := by
  unfold All keys
  cases s with
  | true => exact (perm_SliceStable _ _).trans (r.perm.map Prod.fst)
  | false => exact r.perm.map Prod.fst

theorem pairwise_le_All_true (c : Counter) (r : Range c) :
    (c.All r true).Pairwise (fun a b => a ≤ b) := by
  unfold All
  exact pairwise_SliceStable (fun t : Token => t) _ (fun a b => by rw [decide_eq_true_iff]) _

theorem perm_arranged_ranges (c : Counter) (r1 r2 : Range c) (keep : Entry → Bool)
    (less : Entry → Entry → Bool) (s : Bool) :
    (arranged keep less r1.items s).Perm (arranged keep less r2.items s) :=
  ((perm_arranged keep less r1.items s).trans
    ((r1.perm.trans r2.perm.symm).filter keep)).trans
    (perm_arranged keep less r2.items s).symm

/-- The counts of a sorted selection do not depend on the order of the loop. -/
theorem map_Count_selectTokens_range_eq (c : Counter) (r1 r2 : Range c)
    (keep : Entry → Bool) (less : Entry → Entry → Bool) (g : Int → Int)
    (hg : ∀ x y : Int, g x = g y → x = y)
    (hless : ∀ a b : Entry, less a b = true ↔ g a.2 < g b.2) (n : Int) :
    (selectTokens keep less r1.items n true).map c.Count =
      (selectTokens keep less r2.items n true).map c.Count := by
  by_cases hn : n = 0
  · subst hn
    rw [selectTokens_zero, selectTokens_zero]
  · rw [c.map_Count_selectTokens r1 keep less true hn,
      c.map_Count_selectTokens r2 keep less true hn]
    have hperm := c.perm_arranged_ranges r1 r2 keep less true
    have hsorted : ∀ r : Range c,
        (arranged keep less r.items true).Pairwise (fun x y => g x.2 ≤ g y.2) := by
      intro r
      unfold arranged
      exact pairwise_SliceStable (fun e : Entry => g e.2) less hless _
    have hkeys := map_eq_of_perm_of_pairwise_key (fun e : Entry => g e.2) hperm
      (hsorted r1) (hsorted r2)
    have hsnd : (arranged keep less r1.items true).map Prod.snd =
        (arranged keep less r2.items true).map Prod.snd := by
      have h1 : ∀ l : List Entry, l.map (fun e : Entry => g e.2) = (l.map Prod.snd).map g := by
        intro l
        rw [List.map_map]
        rfl
      rw [h1, h1] at hkeys
      exact (List.map_injective_iff.2 (fun x y h => hg x y h)) hkeys
    rw [List.map_take, List.map_take, hsnd, hperm.length_eq]

end Counter

/-- C19. The results that the sorted queries promise do not depend on the order
in which the entries of the map are enumerated: for two enumeration orders `r1`
and `r2` of the same counter, `All(true)` is the same list, and the list of the
counts of the tokens of `Top(n, min, true)`, and of `Bottom(n, max, true)`, is
the same list, for all `n`, `min` and `max`. -/
theorem C19_sorted_results_order_independent (c : Counter) (r1 r2 : c.Range) :
    c.All r1 true = c.All r2 true ∧
      (∀ n min : Int,
        (c.Top r1 n min true).map c.Count = (c.Top r2 n min true).map c.Count) ∧
      (∀ n max : Int,
        (c.Bottom r1 n max true).map c.Count = (c.Bottom r2 n max true).map c.Count) := by
  refine ⟨?_, ?_, ?_⟩
  · exact eq_of_perm_of_pairwise_key (fun t : Token => t)
      ((c.perm_All_keys r1 true).trans (c.perm_All_keys r2 true).symm)
      (c.pairwise_le_All_true r1) (c.pairwise_le_All_true r2)
      (((c.perm_All_keys r1 true).nodup_iff).2 c.nodupKeys) (fun x _ y _ h => h)
  · intro n min
    exact c.map_Count_selectTokens_range_eq r1 r2 _ _ (fun x => -x)
      (fun x y h => neg_inj.1 h) Counter.less_Top n
  · intro n max
    exact c.map_Count_selectTokens_range_eq r1 r2 _ _ (fun x => x)
      (fun x y h => h) Counter.less_Bottom n

theorem CountFilesLoop_skip (split : SplitFunc) (files : List Source) (tokens : Counter) :
    CountFilesLoop split true files tokens =
      Except.ok ((files.flatMap (Source.yielded split)).foldl Counter.Increment tokens) := by
  induction files generalizing tokens with
  | nil => rfl
  | cons f files ih =>
    cases f with
    | stdin scan =>
      cases h : (scan split).err <;>
        simp [CountFilesLoop, h, ih, Source.yielded, List.foldl_append]
    | openFails err => simp [CountFilesLoop, ih, Source.yielded]
    | statFails err => simp [CountFilesLoop, ih, Source.yielded]
    | notRegular => simp [CountFilesLoop, ih, Source.yielded]
    | regular scan =>
      cases h : (scan split).err <;>
        simp [CountFilesLoop, h, ih, Source.yielded, List.foldl_append]

theorem CountFilesLoop_of_no_failure (split : SplitFunc) (skipErrors : Bool)
    (files : List Source) (hfiles : ∀ g ∈ files, g.failure split = none) (tokens : Counter) :
    CountFilesLoop split skipErrors files tokens =
      Except.ok ((files.flatMap (Source.yielded split)).foldl Counter.Increment tokens) := by
  induction files generalizing tokens with
  | nil => rfl
  | cons f files ih =>
    have hf := hfiles f (List.mem_cons_self _ _)
    have ih2 := ih (fun g hg => hfiles g (List.mem_cons_of_mem _ hg))
    cases f with
    | stdin scan =>
      cases h : (scan split).err with
      | none => simp [CountFilesLoop, h, ih2, Source.yielded, List.foldl_append]
      | some e => simp [Source.failure, h] at hf
    | openFails err => simp [Source.failure] at hf
    | statFails err => simp [Source.failure] at hf
    | notRegular => simp [CountFilesLoop, ih2, Source.yielded]
    | regular scan =>
      cases h : (scan split).err with
      | none => simp [CountFilesLoop, h, ih2, Source.yielded, List.foldl_append]
      | some e => simp [Source.failure, h] at hf

theorem CountFilesLoop_of_failure (split : SplitFunc) (f : Source) (post : List Source)
    (e : Error) (hf : f.failure split = some e) (tokens : Counter) :
    CountFilesLoop split false (f :: post) tokens = Except.error e := by
  cases f with
  | stdin scan =>
    cases h : (scan split).err with
    | none => simp [Source.failure, h] at hf
    | some e2 =>
      simp only [Source.failure, h, Option.map_some', Option.some.injEq] at hf
      simp [CountFilesLoop, h, hf]
  | openFails err =>
    simp only [Source.failure, Option.some.injEq] at hf
    simp [CountFilesLoop, hf]
  | statFails err =>
    simp only [Source.failure, Option.some.injEq] at hf
    simp [CountFilesLoop, hf]
  | notRegular => simp [Source.failure] at hf
  | regular scan =>
    cases h : (scan split).err with
    | none => simp [Source.failure, h] at hf
    | some e2 =>
      simp only [Source.failure, h, Option.map_some', Option.some.injEq] at hf
      simp [CountFilesLoop, h, hf]

theorem CountFilesLoop_first_failure (split : SplitFunc) (pre : List Source) (f : Source)
    (post : List Source) (e : Error) (hpre : ∀ g ∈ pre, g.failure split = none)
    (hf : f.failure split = some e) (tokens : Counter) :
    CountFilesLoop split false (pre ++ f :: post) tokens = Except.error e := by
  induction pre generalizing tokens with
  | nil => exact CountFilesLoop_of_failure split f post e hf tokens
  | cons g pre ih =>
    have hg := hpre g (List.mem_cons_self _ _)
    have ih2 := ih (fun x hx => hpre x (List.mem_cons_of_mem _ hx))
    cases g with
    | stdin scan =>
      cases h : (scan split).err with
      | none => simp [CountFilesLoop, h, ih2]
      | some e2 => simp [Source.failure, h] at hg
    | openFails err => simp [Source.failure] at hg
    | statFails err => simp [Source.failure] at hg
    | notRegular => simp [CountFilesLoop, ih2]
    | regular scan =>
      cases h : (scan split).err with
      | none => simp [CountFilesLoop, h, ih2]
      | some e2 => simp [Source.failure, h] at hg

/-- C17. With `skipErrors` true, `CountFiles` returns no error for any list of
sources: a source that fails to open, to stat or to scan does not end the run,
and the result counts the tokens that the scanners returned for all sources.
With `skipErrors` false, the first source that fails makes `CountFiles` return
its error and no counter, and a run without failing source returns the counter
of all tokens. -/
theorem C17_CountFiles_skipErrors (split : SplitFunc) :
    (∀ files : List Source, CountFiles files split true =
        Except.ok (Counter.incrementAll (files.flatMap (Source.yielded split)))) ∧
      (∀ (pre : List Source) (f : Source) (post : List Source) (e : Error),
        (∀ g ∈ pre, g.failure split = none) → f.failure split = some e →
        CountFiles (pre ++ f :: post) split false = Except.error e) ∧
      (∀ files : List Source, (∀ g ∈ files, g.failure split = none) →
        CountFiles files split false =
          Except.ok (Counter.incrementAll (files.flatMap (Source.yielded split)))) := by
  refine ⟨?_, ?_, ?_⟩
  · intro files
    exact CountFilesLoop_skip split files Counter.New
  · intro pre f post e hpre hf
    exact CountFilesLoop_first_failure split pre f post e hpre hf Counter.New
  · intro files hfiles
    exact CountFilesLoop_of_no_failure split false files hfiles Counter.New

theorem C17_CountFiles_skipErrors_witness :
    CountFiles ([Source.notRegular] ++ Source.openFails (Error.external 2) ::
        [Source.regular (fun _ => ⟨[foo], none⟩)]) ScanBytes false =
      Except.error (Error.opening (Error.external 2)) :=
  (C17_CountFiles_skipErrors ScanBytes).2.1 [Source.notRegular]
    (Source.openFails (Error.external 2)) [Source.regular (fun _ => ⟨[foo], none⟩)]
    (Error.opening (Error.external 2))
    (fun g hg => by rw [List.mem_singleton.1 hg]; rfl) rfl

section Slices

theorem slice_nat (data : Token) {lo hi : Nat} (h1 : lo ≤ hi) (h2 : hi ≤ data.length) :
    slice data (lo : Int) (hi : Int) = some ((data.take hi).drop lo) := by
  unfold slice
  rw [if_pos ⟨by omega, by omega, by omega⟩]
  simp only [Int.toNat_ofNat]

theorem slice_drop (data : Token) {k : Nat} (h : k ≤ data.length) :
    slice data (k : Int) (data.length : Int) = some (data.drop k) := by
  rw [slice_nat data h (Nat.le_refl _), List.take_length]

theorem slice_take (data : Token) {i : Nat} (h : i ≤ data.length) :
    slice data 0 (i : Int) = some (data.take i) := by
  have h2 := slice_nat data (Nat.zero_le i) h
  simp only [Nat.cast_zero, List.drop_zero] at h2
  exact h2

end Slices

section Decoding

theorem decodeTwo_cases (p0 : Fin 256) (l : Token) :
    decodeTwo p0 l = (RuneError, 1) ∨ ((decodeTwo p0 l).2 = 2 ∧ 1 ≤ l.length) := by
  rcases l with _ | ⟨b1, tl⟩
  · exact Or.inl rfl
  · simp only [decodeTwo]
    split_ifs
    · exact Or.inr ⟨rfl, by simp⟩
    · exact Or.inl rfl

theorem decodeThree_cases (p0 : Fin 256) (l : Token) :
    decodeThree p0 l = (RuneError, 1) ∨ ((decodeThree p0 l).2 = 3 ∧ 2 ≤ l.length) := by
  rcases l with _ | ⟨b1, _ | ⟨b2, tl⟩⟩
  · exact Or.inl rfl
  · exact Or.inl rfl
  · simp only [decodeThree]
    split_ifs <;> first | exact Or.inr ⟨rfl, by simp⟩ | exact Or.inl rfl

theorem decodeFour_cases (p0 : Fin 256) (l : Token) :
    decodeFour p0 l = (RuneError, 1) ∨ ((decodeFour p0 l).2 = 4 ∧ 3 ≤ l.length) := by
  rcases l with _ | ⟨b1, _ | ⟨b2, _ | ⟨b3, tl⟩⟩⟩
  · exact Or.inl rfl
  · exact Or.inl rfl
  · exact Or.inl rfl
  · simp only [decodeFour]
    split_ifs <;> first | exact Or.inr ⟨rfl, by simp⟩ | exact Or.inl rfl

theorem decodeRune_cons_cases (p0 : Fin 256) (rest : Token) :
    (decodeRune (p0 :: rest)).2 = 1 ∨
      (decodeRune (p0 :: rest) = decodeTwo p0 rest ∧ (decodeTwo p0 rest).2 = 2 ∧
        1 ≤ rest.length) ∨
      (decodeRune (p0 :: rest) = decodeThree p0 rest ∧ (decodeThree p0 rest).2 = 3 ∧
        2 ≤ rest.length) ∨
      (decodeRune (p0 :: rest) = decodeFour p0 rest ∧ (decodeFour p0 rest).2 = 4 ∧
        3 ≤ rest.length) := by
  simp only [decodeRune]
  split_ifs
  · exact Or.inl rfl
  · exact Or.inl rfl
  · rcases decodeTwo_cases p0 rest with h | h
    · exact Or.inl (by rw [h])
    · exact Or.inr (Or.inl ⟨rfl, h⟩)
  · rcases decodeThree_cases p0 rest with h | h
    · exact Or.inl (by rw [h])
    · exact Or.inr (Or.inr (Or.inl ⟨rfl, h⟩))
  · rcases decodeFour_cases p0 rest with h | h
    · exact Or.inl (by rw [h])
    · exact Or.inr (Or.inr (Or.inr ⟨rfl, h⟩))
  · exact Or.inl rfl

theorem decodeRune_width_pos {data : Token} (h : data ≠ []) : 1 ≤ (decodeRune data).2 := by
  cases data with
  | nil => exact absurd rfl h
  | cons p0 rest =>
    rcases decodeRune_cons_cases p0 rest with h1 | ⟨h1, h2, _⟩ | ⟨h1, h2, _⟩ | ⟨h1, h2, _⟩
    · omega
    · rw [h1, h2]; omega
    · rw [h1, h2]; omega
    · rw [h1, h2]; omega

theorem decodeRune_width_le (data : Token) : (decodeRune data).2 ≤ data.length := by
  cases data with
  | nil => exact Nat.le_refl _
  | cons p0 rest =>
    rcases decodeRune_cons_cases p0 rest with h1 | ⟨h1, h2, h3⟩ | ⟨h1, h2, h3⟩ | ⟨h1, h2, h3⟩
    · rw [h1, List.length_cons]; omega
    · rw [h1, h2, List.length_cons]; omega
    · rw [h1, h2, List.length_cons]; omega
    · rw [h1, h2, List.length_cons]; omega

theorem decodeTwo_append (p0 : Fin 256) (rest ys : Token)
    (h : (decodeTwo p0 (rest ++ ys)).2 ≤ 1 + rest.length) :
    decodeTwo p0 rest = decodeTwo p0 (rest ++ ys) := by
  rcases rest with _ | ⟨b1, tl⟩
  · rcases decodeTwo_cases p0 ([] ++ ys) with h1 | h1
    · rw [h1]; rfl
    · rw [h1.1] at h
      simp only [List.length_nil] at h
      omega
  · rfl

theorem decodeThree_append (p0 : Fin 256) (rest ys : Token)
    (h : (decodeThree p0 (rest ++ ys)).2 ≤ 1 + rest.length) :
    decodeThree p0 rest = decodeThree p0 (rest ++ ys) := by
  rcases rest with _ | ⟨b1, _ | ⟨b2, tl⟩⟩
  · rcases decodeThree_cases p0 ([] ++ ys) with h1 | h1
    · rw [h1]; rfl
    · rw [h1.1] at h
      simp only [List.length_nil] at h
      omega
  · rcases decodeThree_cases p0 ([b1] ++ ys) with h1 | h1
    · rw [h1]; rfl
    · rw [h1.1] at h
      simp only [List.length_cons, List.length_nil] at h
      omega
  · rfl

theorem decodeFour_append (p0 : Fin 256) (rest ys : Token)
    (h : (decodeFour p0 (rest ++ ys)).2 ≤ 1 + rest.length) :
    decodeFour p0 rest = decodeFour p0 (rest ++ ys) := by
  rcases rest with _ | ⟨b1, _ | ⟨b2, _ | ⟨b3, tl⟩⟩⟩
  · rcases decodeFour_cases p0 ([] ++ ys) with h1 | h1
    · rw [h1]; rfl
    · rw [h1.1] at h
      simp only [List.length_nil] at h
      omega
  · rcases decodeFour_cases p0 ([b1] ++ ys) with h1 | h1
    · rw [h1]; rfl
    · rw [h1.1] at h
      simp only [List.length_cons, List.length_nil] at h
      omega
  · rcases decodeFour_cases p0 ([b1, b2] ++ ys) with h1 | h1
    · rw [h1]; rfl
    · rw [h1.1] at h
      simp only [List.length_cons, List.length_nil] at h
      omega
  · rfl

/-- The rune decoded at the head of an input does not depend on the bytes behind
its encoding. -/
theorem decodeRune_append (xs ys : Token) (h : (decodeRune (xs ++ ys)).2 ≤ xs.length) :
    decodeRune xs = decodeRune (xs ++ ys) := by
  rcases xs with _ | ⟨p0, rest⟩
  · cases ys with
    | nil => rfl
    | cons y ys =>
      have h2 := @decodeRune_width_pos (y :: ys) (List.cons_ne_nil _ _)
      simp only [List.nil_append, List.length_nil] at h
      omega
  · simp only [List.cons_append, List.length_cons] at h ⊢
    simp only [decodeRune] at h ⊢
    split_ifs at h ⊢
    · rfl
    · rfl
    · exact decodeTwo_append p0 rest ys (by omega)
    · exact decodeThree_append p0 rest ys (by omega)
    · exact decodeFour_append p0 rest ys (by omega)
    · rfl

end Decoding

section Lines

theorem byteAt_last (data : Token) (h : data ≠ []) :
    byteAt data ((data.length : Int) - 1) = data.getLast? := by
  have hpos : 0 < data.length := List.length_pos.2 h
  unfold byteAt
  rw [if_pos ⟨by omega, by omega⟩]
  have h1 : ((data.length : Int) - 1).toNat = data.length - 1 := by omega
  rw [h1, List.getLast?_eq_getElem?, List.get?_eq_getElem?]

theorem dropCarriageReturn_eq (data : Token) : dropCarriageReturn data = some (stripCR data) := by
  unfold dropCarriageReturn stripCR
  by_cases h : data = []
  · subst h
    rfl
  · have hpos : 0 < data.length := List.length_pos.2 h
    rw [if_pos (by omega), byteAt_last data h]
    cases hl : data.getLast? with
    | none => exact absurd (List.getLast?_eq_none_iff.1 hl) h
    | some b =>
      by_cases hb : b = 13
      · subst hb
        simp only [if_true]
        have h2 : ((data.length : Int) - 1) = ((data.length - 1 : Nat) : Int) := by omega
        rw [h2, slice_take data (Nat.sub_le _ _), List.dropLast_eq_take]
      · have hb2 : ¬ (some b = some (13 : Fin 256)) := fun hc => hb (Option.some.inj hc)
        simp only [hb, hb2, if_false]

theorem indexOf_first {sep : Fin 256} {seg : Token} (rest : Token) (h : sep ∉ seg) :
    (seg ++ sep :: rest).indexOf sep = seg.length := by
  induction seg with
  | nil => simp
  | cons b seg ih =>
    have hb : b ≠ sep := fun hc => h (by rw [hc]; exact List.mem_cons_self _ _)
    have hs : sep ∉ seg := fun hc => h (List.mem_cons_of_mem _ hc)
    rw [List.cons_append, List.indexOf_cons_ne _ hb, ih hs, List.length_cons]

theorem exists_first_sep {sep : Fin 256} {data : Token} (h : sep ∈ data) :
    ∃ seg rest, data = seg ++ sep :: rest ∧ sep ∉ seg := by
  induction data with
  | nil => exact absurd h (List.not_mem_nil _)
  | cons b data ih =>
    by_cases hb : b = sep
    · exact ⟨[], data, by rw [hb]; rfl, List.not_mem_nil _⟩
    · rcases List.mem_cons.1 h with h1 | h1
      · exact absurd h1.symm hb
      · obtain ⟨seg, rest, hd, hs⟩ := ih h1
        refine ⟨b :: seg, rest, by rw [hd]; rfl, ?_⟩
        intro hc
        rcases List.mem_cons.1 hc with h2 | h2
        · exact hb h2.symm
        · exact hs h2

/-- A call of the line splitter on an input with a separator: the token is the
segment in front of the first separator, with a trailing `\r` removed when
`dropCR` is set, and the advance goes behind the separator. -/
theorem scanLines_sep (sep : Fin 256) (dropCR atEOF : Bool) {seg : Token} (rest : Token)
    (h : sep ∉ seg) :
    scanLines sep dropCR (seg ++ sep :: rest) atEOF =
      some ⟨(seg.length : Int) + 1, some (if dropCR then stripCR seg else seg), none⟩ := by
  have hmem : sep ∈ seg ++ sep :: rest :=
    List.mem_append_right _ (List.mem_cons_self _ _)
  have hidx : IndexByte (seg ++ sep :: rest) sep = (seg.length : Int) := by
    unfold IndexByte
    rw [if_pos hmem, indexOf_first rest h]
  have hlen : seg.length ≤ (seg ++ sep :: rest).length := by
    rw [List.length_append]
    omega
  have hne : ¬ (atEOF = true ∧ (seg ++ sep :: rest).length = 0) := by
    rw [List.length_append, List.length_cons]
    omega
  unfold scanLines
  simp only [hne, if_false, hidx]
  rw [if_pos (by omega), slice_take _ hlen, List.take_left']
  · cases dropCR with
    | true => simp only [dropCarriageReturn_eq, if_true]
    | false => simp only [Bool.false_eq_true, if_false]
  · rfl

/-- A call of the line splitter at the end of a non-empty input without
separator: the token is the whole input. -/
theorem scanLines_last (sep : Fin 256) (dropCR : Bool) {data : Token} (h : sep ∉ data)
    (hne : data ≠ []) :
    scanLines sep dropCR data true =
      some ⟨(data.length : Int), some (if dropCR then stripCR data else data), none⟩ := by
  have hpos : 0 < data.length := List.length_pos.2 hne
  have hidx : IndexByte data sep = -1 := by
    unfold IndexByte
    rw [if_neg h]
  have hn : ¬ (data.length = 0) := by omega
  unfold scanLines
  have hneg : ¬ ((-1 : Int) ≥ 0) := by omega
  cases dropCR with
  | true => simp only [true_and, hn, if_false, hidx, hneg, dropCarriageReturn_eq, if_true]
  | false => simp only [true_and, hn, hidx, hneg, Bool.false_eq_true, if_false, if_true]

theorem scanLines_nil (sep : Fin 256) (dropCR : Bool) :
    scanLines sep dropCR [] true = some ⟨0, none, none⟩ := by
  unfold scanLines
  simp

theorem scanLines_more (sep : Fin 256) (dropCR : Bool) {data : Token} (h : sep ∉ data) :
    scanLines sep dropCR data false = some ⟨0, none, none⟩ := by
  have hidx : IndexByte data sep = -1 := by
    unfold IndexByte
    rw [if_neg h]
  unfold scanLines
  have hneg : ¬ ((-1 : Int) ≥ 0) := by omega
  simp only [Bool.false_eq_true, false_and, if_false, hidx, hneg]

end Lines

section LinesSpec

theorem not_of_mem_splitOnP {α : Type} (p : α → Bool) (l : List α) :
    ∀ piece ∈ l.splitOnP p, ∀ x ∈ piece, p x = false := by
  induction l with
  | nil =>
    intro piece hp x hx
    rw [List.splitOnP_nil, List.mem_singleton] at hp
    rw [hp] at hx
    exact absurd hx (List.not_mem_nil _)
  | cons a l ih =>
    intro piece hp x hx
    rw [List.splitOnP_cons] at hp
    by_cases ha : p a = true
    · rw [if_pos ha] at hp
      rcases List.mem_cons.1 hp with h1 | h1
      · rw [h1] at hx
        exact absurd hx (List.not_mem_nil _)
      · exact ih piece h1 x hx
    · rw [if_neg ha] at hp
      cases hg : l.splitOnP p with
      | nil => exact absurd hg (List.splitOnP_ne_nil p l)
      | cons g gs =>
        rw [hg] at hp ih
        simp only [List.modifyHead_cons, List.mem_cons] at hp
        rcases hp with h1 | h1
        · rw [h1] at hx
          rcases List.mem_cons.1 hx with h2 | h2
          · rw [h2]
            exact Bool.eq_false_iff.2 ha
          · exact ih g (List.mem_cons_self _ _) x h2
        · exact ih piece (List.mem_cons_of_mem _ h1) x hx

theorem newline_not_mem {seg : Token} (h : (10 : Fin 256) ∉ seg) :
    ∀ x ∈ seg, ¬ (decide (x = 10) = true) := by
  intro x hx hc
  rw [decide_eq_true_iff] at hc
  rw [hc] at hx
  exact h hx

theorem linesSpec_nil : linesSpec [] = [] := by
  decide

theorem linesSpec_sep {seg : Token} (rest : Token) (h : (10 : Fin 256) ∉ seg) :
    linesSpec (seg ++ 10 :: rest) = stripCR seg :: linesSpec rest := by
  unfold linesSpec
  simp only
  rw [List.splitOnP_first (fun b : Fin 256 => decide (b = 10)) seg (newline_not_mem h) 10
    (by simp) rest]
  cases hg : rest.splitOnP (fun b : Fin 256 => decide (b = 10)) with
  | nil => exact absurd hg (List.splitOnP_ne_nil _ rest)
  | cons g gs =>
    rw [List.getLast?_cons_cons]
    split_ifs
    · rw [List.dropLast_cons₂, List.map_cons]
    · rw [List.map_cons]

theorem linesSpec_last {data : Token} (h : (10 : Fin 256) ∉ data) (hne : data ≠ []) :
    linesSpec data = [stripCR data] := by
  unfold linesSpec
  simp only
  rw [List.splitOnP_eq_single (fun b : Fin 256 => decide (b = 10)) data (newline_not_mem h)]
  have h2 : ¬ ([data].getLast? = some []) := by
    simp only [List.getLast?_singleton, Option.some.injEq]
    exact hne
  rw [if_neg h2, List.map_singleton]

theorem stripCR_subset (seg : Token) : ∀ x ∈ stripCR seg, x ∈ seg := by
  intro x hx
  unfold stripCR at hx
  split_ifs at hx
  · exact (List.dropLast_sublist seg).subset hx
  · exact hx

theorem newline_not_mem_linesSpec (data : Token) :
    ∀ t ∈ linesSpec data, (10 : Fin 256) ∉ t := by
  intro t ht hc
  unfold linesSpec at ht
  simp only at ht
  obtain ⟨piece, hp, hpt⟩ := List.mem_map.1 ht
  have hpiece : piece ∈ data.splitOnP (fun b : Fin 256 => decide (b = 10)) := by
    split_ifs at hp
    · exact (List.dropLast_sublist _).subset hp
    · exact hp
  have h10 : (10 : Fin 256) ∈ piece := stripCR_subset piece 10 (by rw [hpt]; exact hc)
  have hfalse := not_of_mem_splitOnP _ data piece hpiece 10 h10
  simp at hfalse

/-- What `linesSpec` is on an input given by its parts: for segments `segs`,
each followed by a separator, and a last part `last` without separator, the
lines are the segments and, when it is not empty, the last part, each with a
trailing `\r` removed. -/
theorem linesSpec_parts (segs : List Token) (last : Token)
    (hsegs : ∀ s ∈ segs, (10 : Fin 256) ∉ s) (hlast : (10 : Fin 256) ∉ last) :
    linesSpec ((segs.map (fun s => s ++ [10])).flatten ++ last) =
      segs.map stripCR ++ (if last = [] then [] else [stripCR last]) := by
  induction segs with
  | nil =>
    simp only [List.map_nil, List.flatten_nil, List.nil_append]
    by_cases hl : last = []
    · rw [if_pos hl, hl, linesSpec_nil]
    · rw [if_neg hl, linesSpec_last hlast hl]
  | cons s segs ih =>
    have hs := hsegs s (List.mem_cons_self _ _)
    have ih2 := ih (fun x hx => hsegs x (List.mem_cons_of_mem _ hx))
    simp only [List.map_cons, List.flatten_cons, List.append_assoc, List.singleton_append,
      List.cons_append]
    rw [linesSpec_sep _ hs, List.nil_append, ih2]

/-- The line splitter, applied to the remaining input until it returns no
token, yields the lines of the input. -/
theorem scanTokens_scanLines (fuel : Nat) (data : Token) (h : data.length < fuel) :
    scanTokens (scanLines 10 true) fuel data = some (linesSpec data) := by
  induction fuel generalizing data with
  | zero => omega
  | succ fuel ih =>
    by_cases hnil : data = []
    · subst hnil
      simp only [scanTokens, scanLines_nil, linesSpec_nil]
    · by_cases hmem : (10 : Fin 256) ∈ data
      · obtain ⟨seg, rest, hd, hs⟩ := exists_first_sep hmem
        subst hd
        have hlen : (seg ++ 10 :: rest).length = seg.length + 1 + rest.length := by
          rw [List.length_append, List.length_cons]
          omega
        have hcast : ((seg.length : Int) + 1) = ((seg.length + 1 : Nat) : Int) := by
          push_cast
          rfl
        have hdrop : (seg ++ 10 :: rest).drop (seg.length + 1) = rest := by
          have h1 : seg ++ 10 :: rest = (seg ++ [10]) ++ rest := by simp
          have h2 : seg.length + 1 = (seg ++ [10]).length := by simp
          rw [h1, h2, List.drop_left]
        simp only [scanTokens, scanLines_sep 10 true true rest hs, if_true]
        rw [hcast, slice_drop _ (by omega), hdrop]
        simp only [ih rest (by omega), linesSpec_sep rest hs]
      · have hpos : 0 < data.length := List.length_pos.2 hnil
        simp only [scanTokens, scanLines_last 10 true hmem hnil, if_true]
        rw [slice_drop _ (Nat.le_refl _), List.drop_length]
        simp only [ih [] (by simp only [List.length_nil]; omega), linesSpec_nil,
          linesSpec_last hmem hnil]

end LinesSpec

/-- C13. For every byte string, the line splitter `scanLines('\n', true)`,
applied to the remaining input with `atEOF = true` until it returns no token,
yields the lines of the input in order: the segments between the `\n`
separators, separator excluded, one trailing `\r` removed from a segment that
ends with it, the final segment without separator emitted exactly when it is
not empty.  No token contains `\n`, and `x\r\ny\n` yields `x` and `y`. -/
theorem C13_line_split (data : Token) :
    tokensOf (scanLines 10 true) data = some (linesSpec data) ∧
      (∀ t ∈ linesSpec data, (10 : Fin 256) ∉ t) ∧
      (∀ (segs : List Token) (last : Token), (∀ s ∈ segs, (10 : Fin 256) ∉ s) →
        (10 : Fin 256) ∉ last →
        tokensOf (scanLines 10 true) ((segs.map (fun s => s ++ [10])).flatten ++ last) =
          some (segs.map stripCR ++ (if last = [] then [] else [stripCR last]))) ∧
      tokensOf (scanLines 10 true) scenarioE = some [[120], [121]] := by
  refine ⟨scanTokens_scanLines _ data (Nat.lt_succ_self _), newline_not_mem_linesSpec data,
    ?_, by decide⟩
  intro segs last hsegs hlast
  unfold tokensOf
  rw [scanTokens_scanLines _ _ (Nat.lt_succ_self _), linesSpec_parts segs last hsegs hlast]

theorem C13_line_split_witness :
    tokensOf (scanLines 10 true)
        (([[120, 13], []].map (fun s => s ++ [10])).flatten ++ [121, 13]) =
      some ([[120, 13], []].map stripCR ++
        (if ([121, 13] : Token) = [] then [] else [stripCR [121, 13]])) :=
  (C13_line_split []).2.2.1 [[120, 13], []] [121, 13] (by decide) (by decide)

section Chunks

theorem chunksAux_eq_of_le (f1 f2 : Nat) (data : Token) (h1 : data.length ≤ f1)
    (h2 : data.length ≤ f2) : chunksAux f1 data = chunksAux f2 data := by
  induction f1 generalizing f2 data with
  | zero =>
    have hd : data = [] := List.length_eq_zero.1 (Nat.le_zero.1 h1)
    subst hd
    cases f2 <;> rfl
  | succ f1 ih =>
    cases data with
    | nil => cases f2 <;> rfl
    | cons b bs =>
      cases f2 with
      | zero => simp only [List.length_cons] at h2; omega
      | succ f2 =>
        simp only [chunksAux]
        have hw := @decodeRune_width_pos (b :: bs) (List.cons_ne_nil _ _)
        have hlen : ((b :: bs).drop (decodeRune (b :: bs)).2).length ≤ bs.length := by
          rw [List.length_drop, List.length_cons]
          omega
        simp only [List.length_cons] at h1 h2
        rw [ih f2 _ (by omega) (by omega)]

theorem chunks_nil : chunks [] = [] := rfl

theorem chunks_of_ne_nil {data : Token} (h : data ≠ []) :
    chunks data = ((decodeRune data).1, data.take (decodeRune data).2) ::
      chunks (data.drop (decodeRune data).2) := by
  cases data with
  | nil => exact absurd rfl h
  | cons b bs =>
    have hw := @decodeRune_width_pos (b :: bs) (List.cons_ne_nil _ _)
    unfold chunks
    simp only [List.length_cons, chunksAux]
    rw [chunksAux_eq_of_le bs.length _ _ (by rw [List.length_drop, List.length_cons]; omega)
      (Nat.le_refl _)]

theorem chunks_eq_nil_iff {data : Token} : chunks data = [] ↔ data = [] := by
  constructor
  · intro h
    by_contra hne
    rw [chunks_of_ne_nil hne] at h
    exact List.cons_ne_nil _ _ h
  · intro h
    rw [h, chunks_nil]

theorem bytesOf_nil : bytesOf [] = [] := rfl

theorem bytesOf_cons (c : Rune × Token) (cs : List (Rune × Token)) :
    bytesOf (c :: cs) = c.2 ++ bytesOf cs := rfl

theorem bytesOf_append (cs1 cs2 : List (Rune × Token)) :
    bytesOf (cs1 ++ cs2) = bytesOf cs1 ++ bytesOf cs2 := by
  unfold bytesOf
  rw [List.map_append, List.flatten_append]

/-- The code points of an input, put together, are the input. -/
theorem bytesOf_chunks (data : Token) : bytesOf (chunks data) = data := by
  have key : ∀ (n : Nat) (d : Token), d.length ≤ n → bytesOf (chunks d) = d := by
    intro n
    induction n with
    | zero =>
      intro d hd
      have h0 : d = [] := List.length_eq_zero.1 (Nat.le_zero.1 hd)
      subst h0
      rfl
    | succ n ih =>
      intro d hd
      by_cases hne : d = []
      · subst hne
        rfl
      · have hw := decodeRune_width_pos hne
        rw [chunks_of_ne_nil hne, bytesOf_cons, ih _ (by rw [List.length_drop]; omega)]
        exact List.take_append_drop _ _
  exact key data.length data (Nat.le_refl _)

/-- The code points of an input behind a leading part of them are the code
points of the input behind the bytes of that part. -/
theorem chunks_drop (pre post : List (Rune × Token)) (data : Token)
    (h : chunks data = pre ++ post) : chunks (data.drop (bytesOf pre).length) = post := by
  induction pre generalizing data with
  | nil => simpa [bytesOf_nil] using h
  | cons c pre ih =>
    have hne : data ≠ [] := by
      intro hd
      rw [hd, chunks_nil] at h
      exact List.cons_ne_nil _ _ h.symm
    rw [chunks_of_ne_nil hne, List.cons_append, List.cons.injEq] at h
    have hc : c.2 = data.take (decodeRune data).2 := by rw [← h.1]
    have hlen : c.2.length = (decodeRune data).2 := by
      rw [hc, List.length_take]
      exact Nat.min_eq_left (decodeRune_width_le data)
    have h2 := ih _ h.2
    rw [List.drop_drop] at h2
    rw [bytesOf_cons, List.length_append, hlen]
    exact h2

/-- The code points of the bytes of a leading part of the code points of an
input are that part. -/
theorem chunks_bytesOf_leading (run post : List (Rune × Token)) (data : Token)
    (h : chunks data = run ++ post) : chunks (bytesOf run) = run := by
  induction run generalizing data with
  | nil => rfl
  | cons c run ih =>
    have hne : data ≠ [] := by
      intro hd
      rw [hd, chunks_nil] at h
      exact List.cons_ne_nil _ _ h.symm
    rw [chunks_of_ne_nil hne, List.cons_append, List.cons.injEq] at h
    have hw := decodeRune_width_pos hne
    have hwle := decodeRune_width_le data
    have hrest : data.drop (decodeRune data).2 = bytesOf run ++ bytesOf post := by
      rw [← bytesOf_append, ← h.2, bytesOf_chunks]
    have hdata : data = (data.take (decodeRune data).2 ++ bytesOf run) ++ bytesOf post := by
      rw [List.append_assoc, ← hrest, List.take_append_drop]
    have htl : (data.take (decodeRune data).2).length = (decodeRune data).2 := by
      rw [List.length_take]
      exact Nat.min_eq_left hwle
    have hdec : decodeRune (data.take (decodeRune data).2 ++ bytesOf run) = decodeRune data := by
      have h3 := decodeRune_append (data.take (decodeRune data).2 ++ bytesOf run) (bytesOf post)
        (by rw [← hdata, List.length_append, htl]; omega)
      rw [← hdata] at h3
      exact h3
    have hc : c = ((decodeRune data).1, data.take (decodeRune data).2) := h.1.symm
    have hne2 : data.take (decodeRune data).2 ++ bytesOf run ≠ [] := by
      intro hc2
      have h4 := congrArg List.length hc2
      rw [List.length_append, htl, List.length_nil] at h4
      omega
    rw [bytesOf_cons, hc]
    simp only
    rw [chunks_of_ne_nil hne2, hdec, List.take_left' htl, List.drop_left' htl, ih _ h.2]

end Chunks

section WordLoops

theorem chunks_cons_inv {d : Token} {c : Rune × Token} {cs : List (Rune × Token)}
    (h : chunks d = c :: cs) :
    d ≠ [] ∧ c.1 = (decodeRune d).1 ∧ c.2.length = (decodeRune d).2 ∧
      chunks (d.drop (decodeRune d).2) = cs := by
  have hne : d ≠ [] := by
    intro hd
    rw [hd, chunks_nil] at h
    exact List.cons_ne_nil _ _ h.symm
  rw [chunks_of_ne_nil hne, List.cons.injEq] at h
  refine ⟨hne, by rw [← h.1], ?_, h.2⟩
  rw [← h.1, List.length_take]
  exact Nat.min_eq_left (decodeRune_width_le d)

theorem drop_ne_nil_of_lt {data : Token} {k : Nat} (h : k < data.length) : data.drop k ≠ [] := by
  intro hc
  have h2 := congrArg List.length hc
  rw [List.length_drop, List.length_nil] at h2
  omega

theorem lt_of_chunks_drop_cons {data : Token} {k : Nat} {c : Rune × Token}
    {cs : List (Rune × Token)} (h : chunks (data.drop k) = c :: cs) : k < data.length := by
  by_contra hc
  rw [List.drop_eq_nil_of_le (by omega), chunks_nil] at h
  exact List.cons_ne_nil _ _ h.symm

/-- The first loop of `scanWords` ends behind the leading delimiters. -/
theorem skipDelims_spec (delim : Rune → Bool) (data : Token) (ds : List (Rune × Token)) :
    ∀ (rest : List (Rune × Token)) (fuel k : Nat), k ≤ data.length → data.length - k < fuel →
      chunks (data.drop k) = ds ++ rest → (∀ c ∈ ds, delim c.1 = true) →
      (∀ c, rest.head? = some c → delim c.1 = false) →
      skipDelims delim data fuel (k : Int) = some ((k + (bytesOf ds).length : Nat) : Int) := by
  induction ds with
  | nil =>
    intro rest fuel k hk hfuel hch _ hrest
    cases fuel with
    | zero => omega
    | succ fuel =>
      simp only [skipDelims]
      by_cases hlt : k < data.length
      · have hlt2 : (k : Int) < (data.length : Int) := by omega
        rw [if_pos hlt2, slice_drop data hk]
        simp only
        rw [List.nil_append] at hch
        rw [chunks_of_ne_nil (drop_ne_nil_of_lt hlt)] at hch
        have hd := hrest _ (by rw [← hch]; rfl)
        simp only at hd
        rw [hd]
        simp [bytesOf_nil]
      · have hlt2 : ¬ (k : Int) < (data.length : Int) := by omega
        rw [if_neg hlt2]
        simp [bytesOf_nil]
  | cons c ds ih =>
    intro rest fuel k hk hfuel hch hds hrest
    cases fuel with
    | zero => omega
    | succ fuel =>
      rw [List.cons_append] at hch
      have hlt := lt_of_chunks_drop_cons hch
      obtain ⟨hne, hc1, hc2, hcs⟩ := chunks_cons_inv hch
      have hw := decodeRune_width_pos hne
      have hwle := decodeRune_width_le (data.drop k)
      rw [List.length_drop] at hwle
      have hdelim : delim (decodeRune (data.drop k)).1 = true := by
        rw [← hc1]
        exact hds c (List.mem_cons_self _ _)
      have hlt2 : (k : Int) < (data.length : Int) := by omega
      simp only [skipDelims]
      rw [if_pos hlt2, slice_drop data hk]
      simp only [hdelim, Bool.not_true, Bool.false_eq_true, if_false]
      rw [List.drop_drop] at hcs
      have hcast : (k : Int) + ((decodeRune (data.drop k)).2 : Int) =
          ((k + (decodeRune (data.drop k)).2 : Nat) : Int) := by push_cast; rfl
      rw [hcast, ih rest fuel _ (by omega) (by omega) hcs
        (fun x hx => hds x (List.mem_cons_of_mem _ hx)) hrest, bytesOf_cons,
        List.length_append, hc2]
      congr 2
      omega

/-- The second loop of `scanWords`, when a delimiter stands behind a run of
other code points, returns at that delimiter. -/
theorem findDelim_found (delim : Rune → Bool) (data : Token) (start : Nat)
    (ws : List (Rune × Token)) :
    ∀ (c : Rune × Token) (rest : List (Rune × Token)) (fuel i : Nat), i ≤ data.length →
      data.length - i < fuel → start ≤ i →
      chunks (data.drop i) = ws ++ c :: rest → (∀ x ∈ ws, delim x.1 = false) →
      delim c.1 = true →
      findDelim delim data (start : Int) fuel (i : Int) =
        some (some ⟨((i + (bytesOf ws).length + c.2.length : Nat) : Int),
          some ((data.take (i + (bytesOf ws).length)).drop start), none⟩) := by
  induction ws with
  | nil =>
    intro c rest fuel i hi hfuel hstart hch _ hc
    cases fuel with
    | zero => omega
    | succ fuel =>
      rw [List.nil_append] at hch
      have hlt := lt_of_chunks_drop_cons hch
      obtain ⟨hne, hc1, hc2, _⟩ := chunks_cons_inv hch
      have hlt2 : (i : Int) < (data.length : Int) := by omega
      have hdelim : delim (decodeRune (data.drop i)).1 = true := by rw [← hc1]; exact hc
      simp only [findDelim]
      rw [if_pos hlt2, slice_drop data hi]
      simp only [hdelim, if_true]
      rw [slice_nat data hstart hi]
      simp only [bytesOf_nil, List.length_nil, Nat.add_zero, hc2]
      congr 3
  | cons w ws ih =>
    intro c rest fuel i hi hfuel hstart hch hws hc
    cases fuel with
    | zero => omega
    | succ fuel =>
      rw [List.cons_append] at hch
      have hlt := lt_of_chunks_drop_cons hch
      obtain ⟨hne, hc1, hc2, hcs⟩ := chunks_cons_inv hch
      have hw := decodeRune_width_pos hne
      have hwle := decodeRune_width_le (data.drop i)
      rw [List.length_drop] at hwle
      have hdelim : delim (decodeRune (data.drop i)).1 = false := by
        rw [← hc1]
        exact hws w (List.mem_cons_self _ _)
      have hlt2 : (i : Int) < (data.length : Int) := by omega
      simp only [findDelim]
      rw [if_pos hlt2, slice_drop data hi]
      simp only [hdelim, Bool.false_eq_true, if_false]
      rw [List.drop_drop] at hcs
      have hcast : (i : Int) + ((decodeRune (data.drop i)).2 : Int) =
          ((i + (decodeRune (data.drop i)).2 : Nat) : Int) := by push_cast; rfl
      rw [hcast, ih c rest fuel _ (by omega) (by omega) (by omega) hcs
        (fun x hx => hws x (List.mem_cons_of_mem _ hx)) hc, bytesOf_cons,
        List.length_append, hc2]
      have e1 : i + (decodeRune (data.drop i)).2 + (bytesOf ws).length =
          i + ((decodeRune (data.drop i)).2 + (bytesOf ws).length) := by omega
      rw [e1]

/-- The second loop of `scanWords`, when no delimiter is left, runs to the end
of the input. -/
theorem findDelim_end (delim : Rune → Bool) (data : Token) (start : Int)
    (ws : List (Rune × Token)) :
    ∀ (fuel i : Nat), i ≤ data.length → data.length - i < fuel →
      chunks (data.drop i) = ws → (∀ x ∈ ws, delim x.1 = false) →
      findDelim delim data start fuel (i : Int) = some none := by
  induction ws with
  | nil =>
    intro fuel i hi hfuel hch _
    cases fuel with
    | zero => omega
    | succ fuel =>
      have hnil := chunks_eq_nil_iff.1 hch
      have hlen := congrArg List.length hnil
      rw [List.length_drop, List.length_nil] at hlen
      have hlt2 : ¬ (i : Int) < (data.length : Int) := by omega
      simp only [findDelim]
      rw [if_neg hlt2]
  | cons w ws ih =>
    intro fuel i hi hfuel hch hws
    cases fuel with
    | zero => omega
    | succ fuel =>
      have hlt := lt_of_chunks_drop_cons hch
      obtain ⟨hne, hc1, hc2, hcs⟩ := chunks_cons_inv hch
      have hw := decodeRune_width_pos hne
      have hwle := decodeRune_width_le (data.drop i)
      rw [List.length_drop] at hwle
      have hdelim : delim (decodeRune (data.drop i)).1 = false := by
        rw [← hc1]
        exact hws w (List.mem_cons_self _ _)
      have hlt2 : (i : Int) < (data.length : Int) := by omega
      simp only [findDelim]
      rw [if_pos hlt2, slice_drop data hi]
      simp only [hdelim, Bool.false_eq_true, if_false]
      rw [List.drop_drop] at hcs
      have hcast : (i : Int) + ((decodeRune (data.drop i)).2 : Int) =
          ((i + (decodeRune (data.drop i)).2 : Nat) : Int) := by push_cast; rfl
      rw [hcast, ih fuel _ (by omega) (by omega) hcs
        (fun x hx => hws x (List.mem_cons_of_mem _ hx))]

end WordLoops

section WordSplit

theorem exists_span {α : Type} (p : α → Bool) (l : List α) :
    ∃ a b, l = a ++ b ∧ (∀ x ∈ a, p x = true) ∧ (∀ x, b.head? = some x → p x = false) := by
  induction l with
  | nil => exact ⟨[], [], rfl, fun x hx => absurd hx (List.not_mem_nil _), fun x hx => by simp at hx⟩
  | cons y l ih =>
    by_cases hy : p y = true
    · obtain ⟨a, b, hl, ha, hb⟩ := ih
      refine ⟨y :: a, b, by rw [hl]; rfl, ?_, hb⟩
      intro x hx
      rcases List.mem_cons.1 hx with h1 | h1
      · rw [h1]; exact hy
      · exact ha x h1
    · refine ⟨[], y :: l, rfl, fun x hx => absurd hx (List.not_mem_nil _), ?_⟩
      intro x hx
      simp only [List.head?_cons, Option.some.injEq] at hx
      rw [← hx]
      exact Bool.eq_false_iff.2 hy

/-- The shape of a sequence of code points: leading delimiters `ds`, then
nothing, or a non-empty run `ws` of other code points that ends at a delimiter
`c` or at the end of the sequence. -/
theorem word_cases (delim : Rune → Bool) (cs : List (Rune × Token)) :
    ∃ ds : List (Rune × Token), (∀ x ∈ ds, delim x.1 = true) ∧
      (cs = ds ∨
        ∃ ws : List (Rune × Token), ws ≠ [] ∧ (∀ x ∈ ws, delim x.1 = false) ∧
          (cs = ds ++ ws ∨ ∃ c rest, delim c.1 = true ∧ cs = ds ++ (ws ++ c :: rest))) := by
  obtain ⟨ds, X, hcs, hds, hX⟩ := exists_span (fun c : Rune × Token => delim c.1) cs
  refine ⟨ds, hds, ?_⟩
  cases X with
  | nil => exact Or.inl (by rw [hcs, List.append_nil])
  | cons x X =>
    right
    obtain ⟨ws, Y, hxs, hws, hY⟩ := exists_span (fun c : Rune × Token => !delim c.1) (x :: X)
    have hws2 : ∀ y ∈ ws, delim y.1 = false := by
      intro y hy
      have h1 := hws y hy
      simpa using h1
    have hx : delim x.1 = false := hX x rfl
    have hne : ws ≠ [] := by
      intro hc
      rw [hc, List.nil_append] at hxs
      have h1 := hY x (by rw [← hxs]; rfl)
      simp only [Bool.not_eq_false'] at h1
      rw [hx] at h1
      exact Bool.false_ne_true h1
    refine ⟨ws, hne, hws2, ?_⟩
    cases Y with
    | nil => exact Or.inl (by rw [hcs, hxs, List.append_nil])
    | cons c rest =>
      have hc := hY c rfl
      simp only [Bool.not_eq_false'] at hc
      exact Or.inr ⟨c, rest, hc, by rw [hcs, hxs]⟩

theorem skipDelims_zero (delim : Rune → Bool) (data : Token) (ds rest : List (Rune × Token))
    (hch : chunks data = ds ++ rest) (hds : ∀ c ∈ ds, delim c.1 = true)
    (hrest : ∀ c, rest.head? = some c → delim c.1 = false) :
    skipDelims delim data (data.length + 1) 0 = some (((bytesOf ds).length : Nat) : Int) := by
  have h := skipDelims_spec delim data ds rest (data.length + 1) 0 (Nat.zero_le _) (by omega)
    (by rw [List.drop_zero]; exact hch) hds hrest
  simp only [Nat.cast_zero, Nat.zero_add] at h
  exact h

theorem length_bytesOf_le (data : Token) (pre post : List (Rune × Token))
    (h : chunks data = pre ++ post) :
    (bytesOf pre).length + (bytesOf post).length = data.length := by
  have h2 := bytesOf_chunks data
  rw [h, bytesOf_append] at h2
  rw [← List.length_append, h2]

/-- On an input of delimiters only, the word splitter returns no token and
advances over the whole input. -/
theorem scanWords_delims (delim : Rune → Bool) (data : Token) (atEOF : Bool)
    (hds : ∀ c ∈ chunks data, delim c.1 = true) :
    scanWords delim data atEOF = some ⟨(data.length : Int), none, none⟩ := by
  have hskip := skipDelims_zero delim data (chunks data) [] (by rw [List.append_nil]) hds
    (fun c hc => by simp at hc)
  rw [bytesOf_chunks] at hskip
  have hfind := findDelim_end delim data (data.length : Int) [] (data.length + 1) data.length
    (Nat.le_refl _) (by omega) (by rw [List.drop_length, chunks_nil])
    (fun x hx => absurd hx (List.not_mem_nil _))
  unfold scanWords
  simp only [hskip, hfind]
  have hn : ¬ (atEOF = true ∧ (data.length : Int) > (data.length : Int)) := by omega
  rw [if_neg hn]

theorem take_drop_bytesOf (data : Token) (ds ws post : List (Rune × Token))
    (h : chunks data = ds ++ (ws ++ post)) :
    (data.take ((bytesOf ds).length + (bytesOf ws).length)).drop (bytesOf ds).length =
      bytesOf ws := by
  have h2 := bytesOf_chunks data
  rw [h, bytesOf_append, bytesOf_append, ← List.append_assoc] at h2
  have h3 : (bytesOf ds ++ bytesOf ws).length = (bytesOf ds).length + (bytesOf ws).length :=
    List.length_append _ _
  rw [← h2, List.take_left' h3, List.drop_left' rfl]

/-- On an input whose first word ends at a delimiter, the word splitter returns
that word and advances behind the delimiter. -/
theorem scanWords_word (delim : Rune → Bool) (data : Token) (atEOF : Bool)
    (ds ws : List (Rune × Token)) (c : Rune × Token) (rest : List (Rune × Token))
    (hch : chunks data = ds ++ (ws ++ c :: rest)) (hds : ∀ x ∈ ds, delim x.1 = true)
    (hne : ws ≠ []) (hws : ∀ x ∈ ws, delim x.1 = false) (hc : delim c.1 = true) :
    scanWords delim data atEOF =
      some ⟨(((bytesOf ds).length + (bytesOf ws).length + c.2.length : Nat) : Int),
        some (bytesOf ws), none⟩ := by
  have hhead : ∀ x, (ws ++ c :: rest).head? = some x → delim x.1 = false := by
    intro x hx
    cases ws with
    | nil => exact absurd rfl hne
    | cons w ws =>
      simp only [List.cons_append, List.head?_cons, Option.some.injEq] at hx
      rw [← hx]
      exact hws w (List.mem_cons_self _ _)
  have hskip := skipDelims_zero delim data ds _ hch hds hhead
  have hlen := length_bytesOf_le data ds _ hch
  have hfind := findDelim_found delim data (bytesOf ds).length ws c rest (data.length + 1)
    (bytesOf ds).length (by omega) (by omega) (Nat.le_refl _) (chunks_drop ds _ data hch) hws hc
  unfold scanWords
  simp only [hskip, hfind]
  rw [take_drop_bytesOf data ds ws (c :: rest) hch]

/-- On an input whose first word runs to the end, the word splitter returns
that word at the end of the input, and asks for more data before. -/
theorem scanWords_last (delim : Rune → Bool) (data : Token) (atEOF : Bool)
    (ds ws : List (Rune × Token)) (hch : chunks data = ds ++ ws)
    (hds : ∀ x ∈ ds, delim x.1 = true) (hne : ws ≠ [])
    (hws : ∀ x ∈ ws, delim x.1 = false) :
    scanWords delim data atEOF =
      if atEOF then some ⟨(data.length : Int), some (bytesOf ws), none⟩
      else some ⟨((bytesOf ds).length : Int), none, none⟩ := by
  have hhead : ∀ x, ws.head? = some x → delim x.1 = false := by
    intro x hx
    cases ws with
    | nil => exact absurd rfl hne
    | cons w ws =>
      simp only [List.head?_cons, Option.some.injEq] at hx
      rw [← hx]
      exact hws w (List.mem_cons_self _ _)
  have hskip := skipDelims_zero delim data ds _ hch hds hhead
  have hlen := length_bytesOf_le data ds _ hch
  have hfind := findDelim_end delim data ((bytesOf ds).length : Int) ws (data.length + 1)
    (bytesOf ds).length (by omega) (by omega) (chunks_drop ds _ data hch) hws
  have hwpos : 0 < (bytesOf ws).length := by
    have h1 : bytesOf ws ≠ [] := by
      intro hc
      have h2 := chunks_drop ds ws data hch
      have h3 := bytesOf_chunks (data.drop (bytesOf ds).length)
      rw [h2, hc] at h3
      rw [← h3, chunks_nil] at h2
      exact hne h2.symm
    exact List.length_pos.2 h1
  have htok : data.drop (bytesOf ds).length = bytesOf ws := by
    have h3 := bytesOf_chunks (data.drop (bytesOf ds).length)
    rw [chunks_drop ds ws data hch] at h3
    exact h3.symm
  unfold scanWords
  simp only [hskip, hfind]
  cases atEOF with
  | true =>
    have hc : (true = true ∧ (data.length : Int) > ((bytesOf ds).length : Int)) :=
      ⟨rfl, by omega⟩
    rw [if_pos hc, slice_drop data (by omega), htok]
    simp
  | false =>
    simp

end WordSplit

section WordsSpec

theorem splitOnP_head_leads {α : Type} (p : α → Bool) (l : List α) :
    ∀ g gs, l.splitOnP p = g :: gs → List.IsPrefix g l := by
  induction l with
  | nil =>
    intro g gs h
    rw [List.splitOnP_nil, List.cons.injEq] at h
    exact h.1 ▸ List.nil_prefix
  | cons a l ih =>
    intro g gs h
    rw [List.splitOnP_cons] at h
    by_cases ha : p a = true
    · rw [if_pos ha, List.cons.injEq] at h
      rw [← h.1]
      exact List.nil_prefix
    · rw [if_neg ha] at h
      cases hg : l.splitOnP p with
      | nil => exact absurd hg (List.splitOnP_ne_nil p l)
      | cons g2 gs2 =>
        rw [hg, List.modifyHead_cons, List.cons.injEq] at h
        rw [← h.1]
        exact (List.prefix_cons_inj a).2 (ih g2 gs2 hg)

theorem inner_of_mem_splitOnP {α : Type} (p : α → Bool) (l : List α) :
    ∀ piece ∈ l.splitOnP p, List.IsInfix piece l := by
  induction l with
  | nil =>
    intro piece hp
    rw [List.splitOnP_nil, List.mem_singleton] at hp
    exact hp ▸ List.nil_infix
  | cons a l ih =>
    intro piece hp
    rw [List.splitOnP_cons] at hp
    by_cases ha : p a = true
    · rw [if_pos ha] at hp
      rcases List.mem_cons.1 hp with h1 | h1
      · rw [h1]
        exact List.nil_infix
      · exact List.infix_cons (ih piece h1)
    · rw [if_neg ha] at hp
      cases hg : l.splitOnP p with
      | nil => exact absurd hg (List.splitOnP_ne_nil p l)
      | cons g gs =>
        rw [hg, List.modifyHead_cons] at hp
        rcases List.mem_cons.1 hp with h1 | h1
        · rw [h1]
          exact ((List.prefix_cons_inj a).2 (splitOnP_head_leads p l g gs hg)).isInfix
        · exact List.infix_cons (ih piece (by rw [hg]; exact List.mem_cons_of_mem _ h1))

theorem runsOf_nil (delim : Rune → Bool) : runsOf delim [] = [] := rfl

theorem runsOf_delims_append (delim : Rune → Bool) (ds cs : List (Rune × Token))
    (hds : ∀ x ∈ ds, delim x.1 = true) : runsOf delim (ds ++ cs) = runsOf delim cs := by
  induction ds with
  | nil => rfl
  | cons d ds ih =>
    have hd := hds d (List.mem_cons_self _ _)
    have ih2 := ih (fun x hx => hds x (List.mem_cons_of_mem _ hx))
    unfold runsOf at ih2 ⊢
    rw [List.cons_append, List.splitOnP_cons]
    simp only [hd, if_true]
    rw [List.filter_cons]
    simp only [List.isEmpty_nil, Bool.not_true, Bool.false_eq_true, if_false]
    exact ih2

theorem runsOf_word (delim : Rune → Bool) (ws : List (Rune × Token)) (c : Rune × Token)
    (rest : List (Rune × Token)) (hne : ws ≠ []) (hws : ∀ x ∈ ws, delim x.1 = false)
    (hc : delim c.1 = true) : runsOf delim (ws ++ c :: rest) = ws :: runsOf delim rest := by
  unfold runsOf
  rw [List.splitOnP_first (fun c : Rune × Token => delim c.1) ws
    (fun x hx => by simp only [hws x hx, Bool.false_eq_true, not_false_eq_true]) c hc rest,
    List.filter_cons]
  have h1 : (!ws.isEmpty) = true := by
    cases ws with
    | nil => exact absurd rfl hne
    | cons w ws => rfl
  rw [if_pos h1]

theorem runsOf_last (delim : Rune → Bool) (ws : List (Rune × Token)) (hne : ws ≠ [])
    (hws : ∀ x ∈ ws, delim x.1 = false) : runsOf delim ws = [ws] := by
  unfold runsOf
  rw [List.splitOnP_eq_single (fun c : Rune × Token => delim c.1) ws
    (fun x hx => by simp only [hws x hx, Bool.false_eq_true, not_false_eq_true]),
    List.filter_cons]
  have h1 : (!ws.isEmpty) = true := by
    cases ws with
    | nil => exact absurd rfl hne
    | cons w ws => rfl
  rw [if_pos h1, List.filter_nil]

theorem mem_runsOf (delim : Rune → Bool) (cs run : List (Rune × Token))
    (h : run ∈ runsOf delim cs) :
    run ≠ [] ∧ (∀ x ∈ run, delim x.1 = false) ∧ List.IsInfix run cs := by
  unfold runsOf at h
  rw [List.mem_filter] at h
  refine ⟨?_, not_of_mem_splitOnP _ cs run h.1, inner_of_mem_splitOnP _ cs run h.1⟩
  intro hc
  rw [hc] at h
  simp at h

theorem chunks_bytesOf_inner (data : Token) (run : List (Rune × Token))
    (h : List.IsInfix run (chunks data)) : chunks (bytesOf run) = run := by
  obtain ⟨pre, post, hd⟩ := h
  rw [List.append_assoc] at hd
  exact chunks_bytesOf_leading run post _ (chunks_drop pre (run ++ post) data hd.symm)

/-- Every word of the specification is non-empty, and its own code points are
those of its run in the input: none of them is a delimiter. -/
theorem mem_wordsSpec (delim : Rune → Bool) (data t : Token) (h : t ∈ wordsSpec delim data) :
    t ≠ [] ∧ ∀ c ∈ chunks t, delim c.1 = false := by
  unfold wordsSpec at h
  obtain ⟨run, hrun, hrt⟩ := List.mem_map.1 h
  obtain ⟨hne, hnd, hinf⟩ := mem_runsOf delim _ run hrun
  have hch := chunks_bytesOf_inner data run hinf
  rw [hrt] at hch
  constructor
  · intro hc
    rw [hc, chunks_nil] at hch
    exact hne hch.symm
  · intro c hc
    rw [hch] at hc
    exact hnd c hc

theorem wordsSpec_delims (delim : Rune → Bool) (data : Token)
    (hds : ∀ c ∈ chunks data, delim c.1 = true) : wordsSpec delim data = [] := by
  unfold wordsSpec
  have h := runsOf_delims_append delim (chunks data) [] hds
  rw [List.append_nil] at h
  rw [h, runsOf_nil, List.map_nil]

theorem wordsSpec_last (delim : Rune → Bool) (data : Token) (ds ws : List (Rune × Token))
    (hch : chunks data = ds ++ ws) (hds : ∀ x ∈ ds, delim x.1 = true) (hne : ws ≠ [])
    (hws : ∀ x ∈ ws, delim x.1 = false) : wordsSpec delim data = [bytesOf ws] := by
  unfold wordsSpec
  rw [hch, runsOf_delims_append delim ds ws hds, runsOf_last delim ws hne hws, List.map_singleton]

theorem wordsSpec_word (delim : Rune → Bool) (data : Token) (ds ws : List (Rune × Token))
    (c : Rune × Token) (rest : List (Rune × Token))
    (hch : chunks data = ds ++ (ws ++ c :: rest)) (hds : ∀ x ∈ ds, delim x.1 = true)
    (hne : ws ≠ []) (hws : ∀ x ∈ ws, delim x.1 = false) (hc : delim c.1 = true) :
    wordsSpec delim data =
      bytesOf ws ::
        wordsSpec delim (data.drop ((bytesOf ds).length + (bytesOf ws).length + c.2.length)) := by
  have hpre : chunks data = (ds ++ (ws ++ [c])) ++ rest := by
    rw [hch]
    simp only [List.append_assoc, List.singleton_append]
  have hdrop := chunks_drop _ _ data hpre
  have hlen : (bytesOf (ds ++ (ws ++ [c]))).length =
      (bytesOf ds).length + (bytesOf ws).length + c.2.length := by
    rw [bytesOf_append, bytesOf_append, List.length_append, List.length_append, bytesOf_cons,
      bytesOf_nil, List.append_nil]
    omega
  rw [hlen] at hdrop
  unfold wordsSpec
  rw [hdrop, hch, runsOf_delims_append delim ds _ hds, runsOf_word delim ws c rest hne hws hc,
    List.map_cons]

theorem chunk_length_pos (data : Token) (pre : List (Rune × Token)) (c : Rune × Token)
    (rest : List (Rune × Token)) (hch : chunks data = pre ++ c :: rest) : 0 < c.2.length := by
  have h := chunks_drop pre _ data hch
  obtain ⟨hne, _, hc2, _⟩ := chunks_cons_inv h
  have hw := decodeRune_width_pos hne
  omega

/-- The word splitter, applied to the remaining input until it returns no
token, yields the maximal runs of non-delimiter code points of the input. -/
theorem scanTokens_scanWords (delim : Rune → Bool) (fuel : Nat) (data : Token)
    (h : data.length < fuel) :
    scanTokens (scanWords delim) fuel data = some (wordsSpec delim data) := by
  induction fuel generalizing data with
  | zero => omega
  | succ fuel ih =>
    obtain ⟨ds, hds, hcase⟩ := word_cases delim (chunks data)
    rcases hcase with hch | ⟨ws, hne, hws, hch | ⟨c, rest, hc, hch⟩⟩
    · have hall : ∀ x ∈ chunks data, delim x.1 = true := by
        intro x hx
        rw [hch] at hx
        exact hds x hx
      simp only [scanTokens, scanWords_delims delim data true hall,
        wordsSpec_delims delim data hall]
    · have hlen := length_bytesOf_le data ds ws hch
      have hwpos : 0 < data.length := by
        by_contra hc
        have hnil : data = [] := List.length_eq_zero.1 (by omega)
        rw [hnil, chunks_nil] at hch
        have h2 := List.append_eq_nil.1 hch.symm
        exact hne h2.2
      simp only [scanTokens, scanWords_last delim data true ds ws hch hds hne hws, if_true]
      rw [slice_drop data (Nat.le_refl _), List.drop_length]
      simp only [ih [] (by simp only [List.length_nil]; omega),
        wordsSpec_last delim data ds ws hch hds hne hws]
      rfl
    · have hlen := length_bytesOf_le data ds _ hch
      rw [bytesOf_append, bytesOf_cons, List.length_append, List.length_append] at hlen
      have hcpos := chunk_length_pos data (ds ++ ws) c rest (by rw [hch, List.append_assoc])
      have hih := ih (data.drop ((bytesOf ds).length + (bytesOf ws).length + c.2.length))
        (by rw [List.length_drop]; omega)
      simp only [scanTokens, scanWords_word delim data true ds ws c rest hch hds hne hws hc]
      rw [slice_drop data (by omega)]
      simp only [hih, wordsSpec_word delim data ds ws c rest hch hds hne hws hc]

end WordsSpec

section SplitSafety

/-- Every call of the word splitter returns, and its result is safe. -/
theorem scanWords_safe (delim : Rune → Bool) (data : Token) (atEOF : Bool) :
    ∃ res, scanWords delim data atEOF = some res ∧ res.Safe data := by
  obtain ⟨ds, hds, hcase⟩ := word_cases delim (chunks data)
  rcases hcase with hch | ⟨ws, hne, hws, hch | ⟨c, rest, hc, hch⟩⟩
  · have hall : ∀ x ∈ chunks data, delim x.1 = true := by
      intro x hx
      rw [hch] at hx
      exact hds x hx
    refine ⟨_, scanWords_delims delim data atEOF hall, rfl, ?_, ?_, ?_⟩
    · simp only
      omega
    · exact Int.le_refl _
    · intro hc
      exact absurd rfl hc
  · have hlen := length_bytesOf_le data ds ws hch
    have hwpos : 0 < data.length := by
      by_contra hc
      have hnil : data = [] := List.length_eq_zero.1 (by omega)
      rw [hnil, chunks_nil] at hch
      exact hne (List.append_eq_nil.1 hch.symm).2
    have hres := scanWords_last delim data atEOF ds ws hch hds hne hws
    cases atEOF with
    | true =>
      simp only [if_true] at hres
      refine ⟨_, hres, rfl, ?_, ?_, ?_⟩
      · simp only
        omega
      · exact Int.le_refl _
      · intro _
        simp only
        omega
    | false =>
      simp only [Bool.false_eq_true, if_false] at hres
      refine ⟨_, hres, rfl, ?_, ?_, ?_⟩
      · simp only
        omega
      · simp only
        omega
      · intro hc
        exact absurd rfl hc
  · have hlen := length_bytesOf_le data ds _ hch
    rw [bytesOf_append, bytesOf_cons, List.length_append, List.length_append] at hlen
    have hcpos := chunk_length_pos data (ds ++ ws) c rest (by rw [hch, List.append_assoc])
    refine ⟨_, scanWords_word delim data atEOF ds ws c rest hch hds hne hws hc, rfl, ?_, ?_, ?_⟩
    · simp only
      omega
    · simp only
      omega
    · intro _
      simp only
      omega

/-- Every call of the line splitter returns, and its result is safe. -/
theorem scanLines_safe (sep : Fin 256) (dropCR : Bool) (data : Token) (atEOF : Bool) :
    ∃ res, scanLines sep dropCR data atEOF = some res ∧ res.Safe data := by
  by_cases hmem : sep ∈ data
  · obtain ⟨seg, rest, hd, hs⟩ := exists_first_sep hmem
    subst hd
    refine ⟨_, scanLines_sep sep dropCR atEOF rest hs, rfl, ?_, ?_, ?_⟩
    · simp only
      omega
    · simp only [List.length_append, List.length_cons]
      omega
    · intro _
      simp only
      omega
  · cases atEOF with
    | false =>
      refine ⟨_, scanLines_more sep dropCR hmem, rfl, ?_, ?_, ?_⟩
      · exact Int.le_refl _
      · simp only
        omega
      · intro hc
        exact absurd rfl hc
    | true =>
      by_cases hnil : data = []
      · subst hnil
        refine ⟨_, scanLines_nil sep dropCR, rfl, ?_, ?_, ?_⟩
        · exact Int.le_refl _
        · exact Int.le_refl _
        · intro hc
          exact absurd rfl hc
      · have hpos : 0 < data.length := List.length_pos.2 hnil
        refine ⟨_, scanLines_last sep dropCR hmem hnil, rfl, ?_, ?_, ?_⟩
        · simp only
          omega
        · exact Int.le_refl _
        · intro _
          simp only
          omega

/-- Repeated application of a split function whose calls at the end of the input
are safe comes to its end within `len(data) + 1` calls. -/
theorem scanTokens_terminates (split : SplitFunc)
    (hsplit : ∀ data : Token, ∃ res, split data true = some res ∧ res.Safe data)
    (fuel : Nat) (data : Token) (h : data.length < fuel) :
    ∃ tokens, scanTokens split fuel data = some tokens := by
  induction fuel generalizing data with
  | zero => omega
  | succ fuel ih =>
    obtain ⟨res, hres, herr, h0, hle, hpos⟩ := hsplit data
    simp only [scanTokens, hres, herr]
    cases htok : res.token with
    | none => exact ⟨[], rfl⟩
    | some token =>
      have hadv : 0 < res.advance := hpos (by rw [htok]; exact Option.some_ne_none _)
      have hcast : res.advance = ((res.advance.toNat : Nat) : Int) := by omega
      rw [hcast, slice_drop data (by omega)]
      obtain ⟨tokens, htokens⟩ := ih (data.drop res.advance.toNat)
        (by rw [List.length_drop]; omega)
      simp only [htokens]
      exact ⟨_, rfl⟩

end SplitSafety

/-- C12. For every byte string, the word splitter (`scanWords` with the
delimiter function of `countFiles`), applied to the remaining input with
`atEOF = true` until it returns no token, yields in order the maximal runs of
non-delimiter code points of the input.  Every token is non-empty and none of
its code points is a Unicode white space or one of the fourteen punctuation
marks; and `a, b! c` yields `a`, `b`, `c`. -/
theorem C12_word_split (data : Token) :
    tokensOf (scanWords wordDelim) data = some (wordsSpec wordDelim data) ∧
      (∀ t ∈ wordsSpec wordDelim data,
        t ≠ [] ∧ ∀ c ∈ chunks t, IsSpace c.1 = false ∧ c.1 ∉ punctuation) ∧
      tokensOf (scanWords wordDelim) scenarioD = some [[97], [98], [99]] := by
  refine ⟨scanTokens_scanWords wordDelim _ data (Nat.lt_succ_self _), ?_, by decide⟩
  intro t ht
  obtain ⟨hne, hnd⟩ := mem_wordsSpec wordDelim data t ht
  refine ⟨hne, ?_⟩
  intro c hc
  have h := hnd c hc
  unfold wordDelim at h
  by_cases hs : IsSpace c.1 = true
  · rw [if_pos hs] at h
    exact absurd h (by simp)
  · rw [if_neg hs] at h
    by_cases hp : c.1 ∈ punctuation
    · rw [if_pos hp] at h
      exact absurd h (by simp)
    · exact ⟨Bool.eq_false_iff.2 hs, hp⟩

theorem C12_word_split_witness :
    ([97] : Token) ≠ [] ∧
      ∀ c ∈ chunks ([97] : Token), IsSpace c.1 = false ∧ c.1 ∉ punctuation :=
  (C12_word_split scenarioD).2.1 [97] (by decide)

theorem linesSpec_replicate (k : Nat) :
    linesSpec (List.replicate k (10 : Fin 256)) = List.replicate k ([] : Token) := by
  induction k with
  | zero => exact linesSpec_nil
  | succ k ih =>
    have h := @linesSpec_sep [] (List.replicate k (10 : Fin 256)) (List.not_mem_nil _)
    rw [List.nil_append] at h
    rw [List.replicate_succ, h, ih, List.replicate_succ]
    rfl

/-- C14, as stated, fails for the line policy: the input that consists of one
`\n` separator yields one token, the empty string. -/
theorem C14_lines_counterexample :
    (∀ b ∈ ([10] : Token), b = 10) ∧
      tokensOf (scanLines 10 true) [10] = some [[]] ∧
      tokensOf (scanLines 10 true) [10] ≠ some [] :=
  ⟨fun b hb => List.mem_singleton.1 hb, by decide, by decide⟩

/-- C14, amended. For each splitting policy the empty input yields no token;
under the word policy an input whose code points are all delimiters yields no
token; under the line policy an input of `k` separators `\n` yields `k` empty
tokens, one for each separator. -/
theorem C14_only_delimiters (data : Token) (k : Nat) :
    tokensOf ScanBytes [] = some [] ∧
      tokensOf (scanWords wordDelim) [] = some [] ∧
      tokensOf (scanLines 10 true) [] = some [] ∧
      ((∀ c ∈ chunks data, wordDelim c.1 = true) →
        tokensOf (scanWords wordDelim) data = some []) ∧
      tokensOf (scanLines 10 true) (List.replicate k 10) = some (List.replicate k []) := by
  refine ⟨by decide, by decide, by decide, ?_, ?_⟩
  · intro hall
    unfold tokensOf
    rw [scanTokens_scanWords wordDelim _ data (Nat.lt_succ_self _),
      wordsSpec_delims wordDelim data hall]
  · unfold tokensOf
    rw [scanTokens_scanLines _ _ (Nat.lt_succ_self _), linesSpec_replicate]

theorem C14_only_delimiters_witness :
    (∀ c ∈ chunks ([32, 44, 226, 128, 131, 10] : Token), wordDelim c.1 = true) ∧
      tokensOf (scanWords wordDelim) [32, 44, 226, 128, 131, 10] = some [] :=
  ⟨by decide, (C14_only_delimiters [32, 44, 226, 128, 131, 10] 2).2.2.2.1 (by decide)⟩

/-- C20. For every byte slice and both values of `atEOF`, the split functions
returned by `scanWords`, for any delimiter function, and by `scanLines`, for
any separator and `dropCR`, return (no slice expression or index is out of
range and the loops end) with a nil error and an advance between `0` and
`len(data)`, positive whenever a token is returned; so the repeated application
to the remaining input comes to its end. -/
theorem C20_split_functions_safe (data : Token) (atEOF : Bool) :
    (∀ delim : Rune → Bool, ∃ res, scanWords delim data atEOF = some res ∧
        res.err = none ∧ 0 ≤ res.advance ∧ res.advance ≤ (data.length : Int) ∧
        (res.token ≠ none → 0 < res.advance)) ∧
      (∀ (separator : Fin 256) (dropCR : Bool), ∃ res,
        scanLines separator dropCR data atEOF = some res ∧
        res.err = none ∧ 0 ≤ res.advance ∧ res.advance ≤ (data.length : Int) ∧
        (res.token ≠ none → 0 < res.advance)) ∧
      (∀ delim : Rune → Bool, ∃ tokens, tokensOf (scanWords delim) data = some tokens) ∧
      (∀ (separator : Fin 256) (dropCR : Bool), ∃ tokens,
        tokensOf (scanLines separator dropCR) data = some tokens) := by
  refine ⟨fun delim => scanWords_safe delim data atEOF,
    fun separator dropCR => scanLines_safe separator dropCR data atEOF, ?_, ?_⟩
  · intro delim
    exact scanTokens_terminates (scanWords delim) (fun d => scanWords_safe delim d true) _ data
      (Nat.lt_succ_self _)
  · intro separator dropCR
    exact scanTokens_terminates (scanLines separator dropCR)
      (fun d => scanLines_safe separator dropCR d true) _ data (Nat.lt_succ_self _)

theorem C20_split_functions_safe_witness :
    ∃ res, scanWords wordDelim scenarioD true = some res ∧
      res.err = none ∧ 0 ≤ res.advance ∧ res.advance ≤ (scenarioD.length : Int) ∧
      (res.token ≠ none → 0 < res.advance) :=
  (C20_split_functions_safe scenarioD true).1 wordDelim

/-- The two tokenizer scenarios, an input with an invalid encoding, and the
choice of the split function in `countFiles`, evaluated on the model. -/
theorem test_split_scenarios :
    tokensOf (scanWords wordDelim) scenarioD = some [[97], [98], [99]] ∧
      tokensOf (scanLines 10 true) scenarioE = some [[120], [121]] ∧
      tokensOf (scanWords wordDelim) [32, 226, 130, 172, 226, 10, 65] =
        some [[226, 130, 172, 226], [65]] ∧
      tokensOf ScanBytes [97, 98] = some [[97], [98]] ∧
      tokensOf (splitFuncOf topNoSplit) [97, 32, 98] = some [[97], [32], [98]] ∧
      tokensOf (splitFuncOf bottomTwoSplits) [97, 32, 98, 10, 99] =
        some [[97, 32, 98], [99]] := by
  decide

end GoCounter
